import Mathlib

/-!
A verification development for the fxsnapshot heap-snapshot query tool.

The Rust sources are shallowly embedded: each Rust type and function that the
properties below mention is translated into a Lean definition of the same
shape.  Machine integers (`u64`, `usize`) are modelled as `Nat`; the program
performs no arithmetic on them, so no overflow reduction is needed.  Rust
panics (`unwrap`, `assert!`, out-of-bounds indexing, `unimplemented!`) are
modelled either as an explicit `panic` error variant or as an `Option`/`Except`
result, as noted at each definition.  `HashMap`s are modelled as association
lists with first-key-wins lookup; iteration order of a map is the list order.
-/

namespace Fxsnapshot

/-! ## Graph data model (src/dump/mod.rs)

`NodeId` is a `u64` newtype; `Edge` and `Node` mirror the owned record types.
Strings borrowed from the dump buffer (`OneByteString`, `TwoByteString`) are
modelled as `String`; the query evaluator only moves them around and compares
them, so their byte-level representation does not matter here. -/

/-- `NodeId(pub u64)` from src/dump/mod.rs. -/
abbrev NodeId := Nat

/-- `Edge` from src/dump/mod.rs: optional referent id, optional name. -/
structure Edge where
  referent : Option NodeId
  name : Option String
  deriving Repr, DecidableEq

/-- `Node` from src/dump/mod.rs (coarseType kept as its `u32` discriminant;
the evaluator only converts it to a string for field access). -/
structure Node where
  id : NodeId
  size : Option Nat
  edges : List Edge
  coarseType : Nat
  typeName : Option String
  JSObjectClassName : Option String
  scriptFilename : Option String
  descriptiveTypeName : Option String
  deriving Repr, DecidableEq

/-- The part of `CoreDump` that query evaluation consults: the node map
(`node_offsets` plus re-decoding, collapsed to a map from id to the node it
decodes to) and the root node (`get_root`, which the dump guarantees to
succeed).  The association list order stands in for `HashMap` iteration
order. -/
structure CoreDump where
  nodes : List (NodeId × Node)
  root : Node
  deriving Repr

/-- `CoreDump::get_node`: look the id up in the node map. -/
def CoreDump.get_node (d : CoreDump) (id : NodeId) : Option Node :=
  (d.nodes.find? (fun p => p.1 == id)).map (·.2)

/-- `CoreDump::has_node`. -/
def CoreDump.has_node (d : CoreDump) (id : NodeId) : Bool :=
  (d.get_node id).isSome

/-- The string `String::from(CoarseType)` produces (src/dump/mod.rs,
`impl From<CoarseType> for String`); used by `get_node_field`. -/
def coarseTypeString (n : Nat) : String :=
  match n with
  | 0 => "Other"
  | 1 => "Object"
  | 2 => "Script"
  | 3 => "String"
  | 4 => "DOMNode"
  | _ => "BadCoarseType"

/-! ## Plans (src/query/run.rs, src/query/fun.rs)

Each struct implementing `Plan` or `PredicatePlan` becomes a constructor of a
mutual inductive; `Box<dyn Plan>` becomes a child node.  `Const` is split into
its two used instantiations (`u64` and `String`).  The `unimplemented!` arms
of `plan_var` / `plan_stream` become the `crash` constructor (a plan whose
execution is the modelled panic). -/

mutual
/-- Plan tree: one constructor per `Plan` implementor in run.rs / fun.rs. -/
inductive Plan where
  | constNum (n : Nat)
  | constStr (s : String)
  | streamLiteral (elts : List Plan)
  | first (sub : Plan)
  | root
  | nodes
  | nodesById (sub : Plan)
  | edges (sub : Plan)
  | filter (stream : Plan) (capture_list : List VarLocation) (pred : PredPlan)
  | paths (sub : Plan)
  | map
  | captured (i : Nat)
  | actual (i : Nat)
  | lambdaPlan (name : String) (arity : Nat) (body : Plan)
      (capture_list : List VarLocation)
  | callPlan (arg : Plan) (fn : Plan)
  | crash (msg : String)

/-- Predicate plan tree: one constructor per `PredicatePlan` implementor in
run.rs.  Compiled regexes are represented by their pattern text together
with an abstract match predicate supplied at execution time. -/
inductive PredPlan where
  | equalPred (sub : Plan)
  | fieldPred (field_name : String) (pred : PredPlan)
  | ends (sub : PredPlan)
  | regex (pattern : String)
  | andP (subs : List PredPlan)
  | orP (subs : List PredPlan)
  | notP (sub : PredPlan)
  | anyP (sub : PredPlan)
  | allP (sub : PredPlan)
  | empty
  | nonEmpty

/-- `VarLocation` from src/query/fun.rs. -/
inductive VarLocation where
  | actualLoc (i : Nat)
  | capturedLoc (i : Nat)
end

/-! ## Values (src/query/value.rs) -/

/-- `value::Error` from src/query/value.rs, plus a `panic` variant modelling
Rust panics (which abort the process and are not `value::Error`s) and a
`fuelOut` variant for the executor's step budget (real evaluation of a
terminating query never reaches it). -/
inductive Error where
  | typeErr (actual : String) (expected : String)
  | emptyStream
  | noSuchField (value_type : String) (field : String)
  | notAFunction
  | panic (msg : String)
  | fuelOut
  deriving Repr, DecidableEq

mutual
/-- `Value` from src/query/value.rs.  A stream value is modelled by the
sequence of `Result`s its iteration yields (the stream kernel's laziness and
copy-on-write sharing are treated separately, on the stream kernel itself). -/
inductive Value where
  | number (n : Nat)
  | string (s : String)
  | edge (e : Edge)
  | node (n : Node)
  | stream (items : List VRes)
  | fn (f : FnVal)

/-- One stream element: `Result<Value, Error>`. -/
inductive VRes where
  | ok (v : Value)
  | err (e : Error)

/-- The `Callable` implementors reachable from plan execution: `Closure`
(fun.rs), `PartialApp` (value.rs) and the `Map` primitive (run.rs). -/
inductive FnVal where
  | closure (name : String) (arity : Nat) (body : Plan) (captured : List Value)
  | partApp (fn : FnVal) (arity : Nat) (actuals : List Value)
  | mapPrim
end

/-- `Callable::arity` for each implementor: a closure's declared arity, a
partial application's stored deficit, 2 for `Map`. -/
def FnVal.arity : FnVal → Nat
  | .closure _ a _ _ => a
  | .partApp _ a _ => a
  | .mapPrim => 2

/-- `Value::type_name`. -/
def Value.type_name : Value → String
  | .number _ => "number"
  | .string _ => "string"
  | .edge _ => "edge"
  | .node _ => "node"
  | .stream _ => "stream"
  | .fn _ => "function"

/-- `impl PartialEq for Value` (src/query/value.rs lines 183-194): numbers and
strings by content, edges by full structural equality (derived on `Edge`),
nodes by id only, every other pairing — including stream/stream and
function/function — is `false`. -/
def valueEq : Value → Value → Bool
  | .number l, .number r => l == r
  | .string l, .string r => l == r
  | .edge l, .edge r => l == r
  | .node l, .node r => l.id == r.id
  | _, _ => false

/-- `Activation` from src/query/fun.rs: the captured vector and the actuals. -/
structure Activation where
  captured : List Value
  actuals : List Value

/-- `Activation::from_captured`. -/
def Activation.from_captured (c : List Value) : Activation := ⟨c, []⟩

/-- `Activation::get`: slice indexing, which panics when out of bounds (static
analysis guarantees in-bounds locations for analysed queries). -/
def Activation.get (act : Activation) (loc : VarLocation) : Except Error Value :=
  match loc with
  | .actualLoc i =>
    match act.actuals.get? i with
    | some v => .ok v
    | none => .error (.panic "index out of bounds")
  | .capturedLoc i =>
    match act.captured.get? i with
    | some v => .ok v
    | none => .error (.panic "index out of bounds")

/-- `Activation::get_captured`: gather the values named by a capture list. -/
def Activation.get_captured (act : Activation) (cl : List VarLocation) :
    Except Error (List Value) :=
  cl.mapM act.get

/-- `get_node_field` from src/query/run.rs. -/
def get_node_field (n : Node) (field : String) : Except Error (Option Value) :=
  match field with
  | "id" => .ok (some (.number n.id))
  | "size" => .ok (n.size.map .number)
  | "coarseType" => .ok (some (.string (coarseTypeString n.coarseType)))
  | "typeName" => .ok (n.typeName.map .string)
  | "JSObjectClassName" => .ok (n.JSObjectClassName.map .string)
  | "scriptFilename" => .ok (n.scriptFilename.map .string)
  | "descriptiveTypeName" => .ok (n.descriptiveTypeName.map .string)
  | _ => .error (.noSuchField "nodes" field)

/-- `get_edge_field` from src/query/run.rs. -/
def get_edge_field (e : Edge) (field : String) : Except Error (Option Value) :=
  match field with
  | "referent" => .ok (e.referent.map .number)
  | "name" => .ok (e.name.map .string)
  | _ => .error (.noSuchField "edges" field)

/-- `fallible_iterator::last` on a stream's yielded results, as used by the
`Ends` predicate: drain the stream, propagating the first error; `None` when
the stream was empty. -/
def streamLast : List VRes → Except Error (Option Value)
  | [] => .ok none
  | .err e :: _ => .error e
  | .ok v :: rest =>
    match streamLast rest with
    | .ok none => .ok (some v)
    | .ok (some w) => .ok (some w)
    | .error e => .error e

/-- `Stream::next` observed on the modelled result sequence, as used by
`First`, `Empty` and `NonEmpty`. -/
def streamNext : List VRes → Except Error (Option Value)
  | [] => .ok none
  | .err e :: _ => .error e
  | .ok v :: _ => .ok (some v)

/-- Execution context, `Context` in src/query/mod.rs: the dump, plus the
meaning of compiled regexes (`regex::Regex::is_match`), abstracted as a
function from pattern and subject to `Bool`. -/
structure Context where
  dump : CoreDump
  regexMatch : String → String → Bool

/-! ## Breadth-first traversal (src/query/breadth_first.rs)

`visited` is a `HashMap<NodeId, Option<Step>>`, modelled as an insertion-
ordered association list with first-key-wins lookup; `front` is a `VecDeque`
popped at the head and pushed at the back. -/

/-- `Step` from src/query/breadth_first.rs. -/
structure Step where
  origin : NodeId
  edge : Edge
  deriving Repr, DecidableEq

/-- The visited map. -/
abbrev Visited := List (NodeId × Option Step)

/-- `HashMap::get` on the modelled visited map. -/
def visitedLookup (v : Visited) (id : NodeId) : Option (Option Step) :=
  (v.find? (fun p => p.1 == id)).map (·.2)

/-- `HashMap::insert`: replace the value under an existing key, otherwise
append a new entry. -/
def hmInsert (v : Visited) (id : NodeId) (val : Option Step) : Visited :=
  if (v.find? (fun p => p.1 == id)).isSome then
    v.map (fun p => if p.1 == id then (p.1, val) else p)
  else
    v ++ [(id, val)]

/-- `BreadthFirst` minus the `dump` reference (the dump is passed to each
operation instead). -/
structure BreadthFirst where
  visited : Visited
  front : List NodeId
  deriving Repr

/-- `BreadthFirst::new`. -/
def BreadthFirst.new : BreadthFirst := ⟨[], []⟩

/-- `BreadthFirst::set_start_node` (called `add_start_node` at its use site in
run.rs): assert the node exists (the assertion failure is the modelled
panic), map it to `None` and enqueue it. -/
def BreadthFirst.set_start_node (dump : CoreDump) (bf : BreadthFirst)
    (id : NodeId) : Except Error BreadthFirst :=
  if dump.has_node id then
    .ok ⟨hmInsert bf.visited id none, bf.front ++ [id]⟩
  else
    .error (.panic "assertion failed: self.dump.has_node(node)")

/-- The predecessor-walking loop of `path_from_start`.  The Rust loop indexes
`visited[origin]` (a panic when absent) and terminates because predecessor
chains are acyclic in every reachable state; the model makes both explicit
with a fuel argument (`none` = the panic / a cycle, impossible in reachable
states).  Steps are consed in walk order, which yields the reversed vector
the Rust code produces. -/
def pathWalk (v : Visited) : Nat → Option Step → List Step → Option (List Step)
  | 0, _, _ => none
  | _, none, acc => some acc
  | fuel + 1, some step, acc =>
    match visitedLookup v step.origin with
    | none => none
    | some entry => pathWalk v fuel entry (step :: acc)

/-- `BreadthFirst::path_from_start`. -/
def BreadthFirst.path_from_start (bf : BreadthFirst) (id : NodeId) :
    Option (List Step) :=
  match visitedLookup bf.visited id with
  | none => none
  | some entry => pathWalk bf.visited bf.visited.length entry []

/-- The edge-scanning loop in `BreadthFirst::next`: for each outgoing edge
with a referent not yet visited, record the step that reaches it and enqueue
it. -/
def scanEdges (id : NodeId) : List Edge → Visited × List NodeId →
    Visited × List NodeId
  | [], st => st
  | edge :: rest, (v, f) =>
    match edge.referent with
    | none => scanEdges id rest (v, f)
    | some referent =>
      match visitedLookup v referent with
      | some _ => scanEdges id rest (v, f)
      | none =>
        scanEdges id rest (hmInsert v referent (some ⟨id, edge⟩), f ++ [referent])

/-- `<BreadthFirst as Iterator>::next`.  `none` ends the iteration;
`some (.error _)` models the panics (`get_node(id).unwrap()` on a dangling
referent, and the impossible `path_from_start` failure). -/
def BreadthFirst.next (dump : CoreDump) (bf : BreadthFirst) :
    Option (Except Error (List Step × BreadthFirst)) :=
  match bf.front with
  | [] => none
  | id :: restFront =>
    match dump.get_node id with
    | none => some (.error (.panic "get_node(id).unwrap() failed"))
    | some node =>
      let (visited, front) := scanEdges id node.edges (bf.visited, restFront)
      let bf : BreadthFirst := ⟨visited, front⟩
      match bf.path_from_start id with
      | none => some (.error (.panic "path_from_start(id).unwrap() failed"))
      | some path => some (.ok (path, bf))

/-- Drain the traversal: the list of paths produced by repeated `next` calls.
The fuel bounds the number of iterations; an adequate bound is established
separately (`bfsFuel`). -/
def bfsRun (dump : CoreDump) : Nat → BreadthFirst →
    Except Error (List (List Step))
  | 0, _ => .ok []
  | fuel + 1, bf =>
    match bf.next dump with
    | none => .ok []
    | some (.error e) => .error e
    | some (.ok (path, bf')) =>
      match bfsRun dump fuel bf' with
      | .error e => .error e
      | .ok rest => .ok (path :: rest)

/-- A fuel bound sufficient to drain any traversal over `dump`: every `next`
consumes one front entry, and entries are enqueued at most once per node of
the dump beyond those initially present. -/
def bfsFuel (dump : CoreDump) (bf : BreadthFirst) : Nat :=
  bf.front.length + dump.nodes.length + 1

/-- The per-path wrapping done by the `Paths` plan (src/query/run.rs lines
358-373): an empty path maps to `none` (dropped by `filter_map`); a non-empty
path becomes the source node followed by each step's edge and referent node.
The inner `unwrap`s (`edge.referent.unwrap()`, `get_node(..).unwrap()`) are
Rust panics; they surface here as `none`, and are shown impossible under the
resolvable-edges hypothesis used by the theorems. -/
def wrapStep (dump : CoreDump) (st : Step) : Option (List Value) := do
  let r ← st.edge.referent
  let n ← dump.get_node r
  pure [Value.edge st.edge, Value.node n]

/-- Wrap one traversal path as the `Paths` plan does; `none` both for the
dropped empty path and for the (hypothesis-excluded) panics. -/
def wrapPath (dump : CoreDump) (path : List Step) : Option (List Value) :=
  match path with
  | [] => none
  | st :: _ => do
    let start ← dump.get_node st.origin
    let steps ← path.mapM (wrapStep dump)
    pure (Value.node start :: steps.flatten)

/-- The full `paths` primitive on a list of start ids: seed the traversal,
drain it, and wrap each non-empty path. -/
def pathsPrimitive (dump : CoreDump) (starts : List NodeId) :
    Except Error (List (List Value)) := do
  let bf ← starts.foldlM (fun bf id => BreadthFirst.set_start_node dump bf id)
    BreadthFirst.new
  let raw ← bfsRun dump (bfsFuel dump bf) bf
  .ok (raw.filterMap (wrapPath dump))

/-- Convert the results of evaluating the start expression of `Paths::run`
into the list of start node ids: every stream element must be a node. -/
def collectStartIds : List VRes → Except Error (List NodeId)
  | [] => .ok []
  | .err e :: _ => .error e
  | .ok v :: rest =>
    match v with
    | .node n =>
      match collectStartIds rest with
      | .error e => .error e
      | .ok t => .ok (n.id :: t)
    | other => .error (.typeErr other.type_name "node")

/-! ## Plan execution (src/query/run.rs, src/query/fun.rs, src/query/value.rs)

One mutual block: `runPlan` is `Plan::run`, `testPred` is
`PredicatePlan::test`, `callFn` is `Function::call` and `callExactArity` is
`Callable::call_exact_arity`.  Rust's `dyn` dispatch becomes a match on the
plan / callable constructor.  Closures make evaluation non-structural, so a
fuel argument bounds the depth of function invocation; it is consumed only
when `Function::call` is entered, so every equation the theorems rely on
holds for any fuel large enough, and a terminating evaluation is
fuel-independent. -/

mutual

/-- `Plan::run` for every plan node. -/
def runPlan (cx : Context) (fuel : Nat) (p : Plan) (act : Activation) :
    Except Error Value :=
  match p with
  | .constNum n => .ok (.number n)
  | .constStr s => .ok (.string s)
  | .streamLiteral elts => .ok (.stream (runList cx fuel elts act))
  | .first sub =>
    match runPlan cx fuel sub act with
    | .error e => .error e
    | .ok v =>
      match v with
      | .stream items =>
        match streamNext items with
        | .error e => .error e
        | .ok none => .error .emptyStream
        | .ok (some w) => .ok w
      | other => .error (.typeErr other.type_name "stream")
  | .root => .ok (.node cx.dump.root)
  | .nodes => .ok (.stream (cx.dump.nodes.map (fun q => .ok (.node q.2))))
  | .nodesById sub =>
    match runPlan cx fuel sub act with
    | .error e => .error e
    | .ok v =>
      match v with
      | .number id =>
        match cx.dump.get_node id with
        | some n => .ok (.stream [.ok (.node n)])
        | none => .ok (.stream [])
      | other => .error (.typeErr other.type_name "number")
  | .edges sub =>
    match runPlan cx fuel sub act with
    | .error e => .error e
    | .ok v =>
      match v with
      | .node n => .ok (.stream (n.edges.map (fun e => .ok (.edge e))))
      | other => .error (.typeErr other.type_name "node")
  | .filter streamPlan cl pred =>
    match runPlan cx fuel streamPlan act with
    | .error e => .error e
    | .ok v =>
      match v with
      | .stream items =>
        match act.get_captured cl with
        | .error e => .error e
        | .ok captured => .ok (.stream (filterStream cx fuel pred captured items))
      | other => .error (.typeErr other.type_name "stream")
  | .paths sub =>
    match runPlan cx fuel sub act with
    | .error e => .error e
    | .ok v =>
      let startsRes : Except Error (List NodeId) :=
        match v with
        | .node n => .ok [n.id]
        | .stream items => collectStartIds items
        | other => .error (.typeErr other.type_name "node or stream of nodes")
      match startsRes with
      | .error e => .error e
      | .ok starts =>
        match pathsPrimitive cx.dump starts with
        | .error e => .error e
        | .ok paths =>
          .ok (.stream (paths.map (fun vs => .ok (.stream (vs.map .ok)))))
  | .map => .ok (.fn .mapPrim)
  | .captured i =>
    match act.captured.get? i with
    | some v => .ok v
    | none => .error (.panic "index out of bounds")
  | .actual i =>
    match act.actuals.get? i with
    | some v => .ok v
    | none => .error (.panic "index out of bounds")
  | .lambdaPlan name arity body cl =>
    match act.get_captured cl with
    | .error e => .error e
    | .ok captured => .ok (.fn (.closure name arity body captured))
  | .callPlan argPlan funPlan =>
    match runPlan cx fuel argPlan act with
    | .error e => .error e
    | .ok argv =>
      match runPlan cx fuel funPlan act with
      | .error e => .error e
      | .ok funv =>
        match funv with
        | .fn f => callFn cx fuel f [argv]
        | _ => .error .notAFunction
  | .crash msg => .error (.panic msg)
termination_by (fuel, sizeOf p, 0, 0)

/-- `StreamLiteral::run`'s eager element evaluation (`collect` of the
per-element `EvalResult`s). -/
def runList (cx : Context) (fuel : Nat) (ps : List Plan) (act : Activation) :
    List VRes :=
  match ps with
  | [] => []
  | p :: rest =>
    (match runPlan cx fuel p act with
     | .ok v => .ok v
     | .error e => .err e) :: runList cx fuel rest act
termination_by (fuel, sizeOf ps, 0, 0)

/-- `Function::call` (src/query/value.rs lines 269-302).  Entering a call
consumes one unit of fuel. -/
def callFn (cx : Context) (fuel : Nat) (f : FnVal) (actuals : List Value) :
    Except Error Value :=
  match fuel with
  | 0 => .error .fuelOut
  | n + 1 =>
    let arity := f.arity
    if arity = 0 then .error (.panic "assertion failed: arity > 0")
    else if actuals.length < arity then
      .ok (.fn (.partApp f (arity - actuals.length) actuals))
    else
      match callExactArity cx n f (actuals.drop (actuals.length - arity)) with
      | .error e => .error e
      | .ok value =>
        if (actuals.take (actuals.length - arity)).isEmpty then .ok value
        else
          match value with
          | .fn next_fun => callFn cx n next_fun (actuals.take (actuals.length - arity))
          | _ => .error .notAFunction
termination_by (fuel, 0, 0, 0)

/-- `Callable::call_exact_arity` for the three implementors: `Closure`
(fun.rs) runs the body in a fresh activation; `PartialApp` (value.rs)
extends the new actuals with the saved ones and forwards; `Map` (run.rs)
returns the lazily mapped stream. -/
def callExactArity (cx : Context) (fuel : Nat) (f : FnVal)
    (actuals : List Value) : Except Error Value :=
  match f with
  | .closure _ _ body captured => runPlan cx fuel body ⟨captured, actuals⟩
  | .partApp g _ saved => callExactArity cx fuel g (actuals ++ saved)
  | .mapPrim =>
    match actuals with
    | [sv, fv] =>
      match sv with
      | .stream items =>
        match fv with
        | .fn g => .ok (.stream (mapStream cx fuel g items))
        | other => .error (.typeErr other.type_name "function")
      | other => .error (.typeErr other.type_name "stream")
    | _ => .error (.panic "assertion failed: actuals.len() == 2")
termination_by (fuel, sizeOf f, 0, 0)

/-- The stream adapter built by `Map`: apply the function to each element. -/
def mapStream (cx : Context) (fuel : Nat) (g : FnVal) (items : List VRes) :
    List VRes :=
  match items with
  | [] => []
  | .err e :: rest => .err e :: mapStream cx fuel g rest
  | .ok v :: rest =>
    (match callFn cx fuel g [v] with
     | .ok w => .ok w
     | .error e => .err e) :: mapStream cx fuel g rest
termination_by (fuel, 0, items.length, 0)

/-- `PredicatePlan::test` for every predicate plan node. -/
def testPred (cx : Context) (fuel : Nat) (q : PredPlan) (v : Value)
    (act : Activation) : Except Error Bool :=
  match q with
  | .equalPred sub =>
    match runPlan cx fuel sub act with
    | .error e => .error e
    | .ok given => .ok (valueEq v given)
  | .fieldPred name sub =>
    match
      (match v with
       | .node n => get_node_field n name
       | .edge e => get_edge_field e name
       | other => .error (.typeErr other.type_name "node or edge"))
    with
    | .error e => .error e
    | .ok none => .ok false
    | .ok (some fv) => testPred cx fuel sub fv act
  | .ends sub =>
    match v with
    | .stream items =>
      match streamLast items with
      | .error e => .error e
      | .ok none => .error .emptyStream
      | .ok (some lastv) => testPred cx fuel sub lastv act
    | other => .error (.typeErr other.type_name "stream")
  | .regex pat =>
    match v with
    | .string s => .ok (cx.regexMatch pat s)
    | other => .error (.typeErr other.type_name "string")
  | .andP subs => testAndList cx fuel subs v act
  | .orP subs => testOrList cx fuel subs v act
  | .notP sub =>
    match testPred cx fuel sub v act with
    | .error e => .error e
    | .ok b => .ok (!b)
  | .anyP sub =>
    match v with
    | .stream items => anyStream cx fuel sub act items
    | other => .error (.typeErr other.type_name "stream")
  | .allP sub =>
    match v with
    | .stream items => allStream cx fuel sub act items
    | other => .error (.typeErr other.type_name "stream")
  | .empty =>
    match v with
    | .stream items =>
      match streamNext items with
      | .error e => .error e
      | .ok o => .ok o.isNone
    | other => .error (.typeErr other.type_name "stream")
  | .nonEmpty =>
    match v with
    | .stream items =>
      match streamNext items with
      | .error e => .error e
      | .ok o => .ok o.isSome
    | other => .error (.typeErr other.type_name "stream")
termination_by (fuel, sizeOf q, 0, 0)

/-- `And::test`: `fallible_iterator::all` over the subplans. -/
def testAndList (cx : Context) (fuel : Nat) (qs : List PredPlan) (v : Value)
    (act : Activation) : Except Error Bool :=
  match qs with
  | [] => .ok true
  | q :: rest =>
    match testPred cx fuel q v act with
    | .error e => .error e
    | .ok false => .ok false
    | .ok true => testAndList cx fuel rest v act
termination_by (fuel, sizeOf qs, 0, 0)

/-- `Or::test`: `fallible_iterator::any` over the subplans. -/
def testOrList (cx : Context) (fuel : Nat) (qs : List PredPlan) (v : Value)
    (act : Activation) : Except Error Bool :=
  match qs with
  | [] => .ok false
  | q :: rest =>
    match testPred cx fuel q v act with
    | .error e => .error e
    | .ok true => .ok true
    | .ok false => testOrList cx fuel rest v act
termination_by (fuel, sizeOf qs, 0, 0)

/-- `Any::test` on a stream's elements. -/
def anyStream (cx : Context) (fuel : Nat) (q : PredPlan) (act : Activation)
    (items : List VRes) : Except Error Bool :=
  match items with
  | [] => .ok false
  | .err e :: _ => .error e
  | .ok v :: rest =>
    match testPred cx fuel q v act with
    | .error e => .error e
    | .ok true => .ok true
    | .ok false => anyStream cx fuel q act rest
termination_by (fuel, sizeOf q, items.length, 1)

/-- `All::test` on a stream's elements. -/
def allStream (cx : Context) (fuel : Nat) (q : PredPlan) (act : Activation)
    (items : List VRes) : Except Error Bool :=
  match items with
  | [] => .ok true
  | .err e :: _ => .error e
  | .ok v :: rest =>
    match testPred cx fuel q v act with
    | .error e => .error e
    | .ok false => .ok false
    | .ok true => allStream cx fuel q act rest
termination_by (fuel, sizeOf q, items.length, 1)

/-- The stream adapter built by `Filter::run`: test each element against the
predicate in an activation holding only the snapshot of captured values;
elements failing the test are dropped, underlying and predicate errors are
passed through. -/
def filterStream (cx : Context) (fuel : Nat) (q : PredPlan)
    (captured : List Value) (items : List VRes) : List VRes :=
  match items with
  | [] => []
  | .err e :: rest => .err e :: filterStream cx fuel q captured rest
  | .ok v :: rest =>
    match testPred cx fuel q v (Activation.from_captured captured) with
    | .error e => .err e :: filterStream cx fuel q captured rest
    | .ok true => .ok v :: filterStream cx fuel q captured rest
    | .ok false => filterStream cx fuel q captured rest
termination_by (fuel, sizeOf q, items.length, 1)

end

/-! ## Abstract syntax (the `Expr`/`Predicate` shape consumed by
src/query/run.rs; the checked-in ast.rs is an earlier snapshot of the same
tree, without the predicate-op label and the `Map` variable that run.rs
pattern-matches on). -/

/-- `PredicateOp` from the query AST. -/
inductive PredicateOp where
  | find
  | filter
  | untilOp
  deriving Repr, DecidableEq

/-- `Var`: reserved operator names plus labelled lexical references. -/
inductive Var where
  | edges
  | first
  | nodes
  | paths
  | root
  | map
  | lexical (id : Nat) (name : String)
  deriving Repr, DecidableEq

mutual
/-- `Expr`: the expression tree, with labelled lambdas, predicate-ops and
uses. -/
inductive Expr where
  | number (n : Nat)
  | stringLit (s : String)
  | streamLiteral (elts : List Expr)
  | predicateOp (id : Nat) (stream : Expr) (op : PredicateOp)
      (predicate : Predicate)
  | var (v : Var)
  | lambda (id : Nat) (formals : List String) (body : Expr)
  | app (arg : Expr) (fn : Expr)

/-- `Predicate`: the predicate tree (compiled regexes by their pattern). -/
inductive Predicate where
  | expr (e : Expr)
  | field (name : String) (sub : Predicate)
  | ends (sub : Predicate)
  | any (sub : Predicate)
  | all (sub : Predicate)
  | regex (pattern : String)
  | and (subs : List Predicate)
  | or (subs : List Predicate)
  | not (sub : Predicate)
end

/-- The outcome of static analysis that planning consults
(`StaticAnalysis` in fun.rs): the resolved location of each use id and the
capture list of each lambda id. -/
structure StaticAnalysis where
  referents : Nat → VarLocation
  capture_lists : Nat → List VarLocation

/-- `PlanOrTrivial` from src/query/run.rs. -/
inductive PlanOrTrivial where
  | plan (p : PredPlan)
  | trivial (b : Bool)

/-- `PlanOrTrivial::map_plan`. -/
def PlanOrTrivial.map_plan (pot : PlanOrTrivial) (f : PredPlan → PredPlan) :
    PlanOrTrivial :=
  match pot with
  | .plan p => .plan (f p)
  | .trivial k => .trivial k

/-- `splice` from src/query/run.rs: the vector equal to `slice` with
`slice[i]` replaced by the elements of `v`. -/
def splice {α : Type} (slice : List α) (i : Nat) (v : List α) : List α :=
  if slice.length = 1 then v
  else slice.take i ++ v ++ slice.drop (i + 1)

mutual
/-- `find_predicate_required_id` from src/query/run.rs: a bare
`Field("id", Expr(e))` contributes `(e, [])`; a conjunction contributes
through its first contributing subterm, with the child remainder spliced in
place of that subterm; nothing else contributes. -/
def find_predicate_required_id : Predicate → Option (Expr × List Predicate)
  | .field name idp =>
    if name = "id" then
      match idp with
      | .expr e => some (e, [])
      | _ => none
    else none
  | .and predicates =>
    match findReqInList predicates with
    | some (i, e, cr) => some (e, splice predicates i cr)
    | none => none
  | _ => none

/-- The `iter().enumerate().find_map(..)` search inside
`find_predicate_required_id`: index, id expression and child remainder of
the first contributing subterm. -/
def findReqInList : List Predicate → Option (Nat × Expr × List Predicate)
  | [] => none
  | p :: rest =>
    match find_predicate_required_id p with
    | some (e, cr) => some (0, e, cr)
    | none =>
      match findReqInList rest with
      | some (i, e, cr) => some (i + 1, e, cr)
      | none => none
end

/-- List `sizeOf` distributes over append (up to the extra nil). -/
theorem sizeOf_list_append {α : Type} [SizeOf α] (l1 l2 : List α) :
    sizeOf (l1 ++ l2) + 1 = sizeOf l1 + sizeOf l2 := by
  induction l1 with
  | nil => simp; omega
  | cons a t ih => simp only [List.cons_append, List.cons.sizeOf_spec]; omega

/-- Every `Predicate` has positive size. -/
theorem sizeOf_pos_predicate (p : Predicate) : 0 < sizeOf p := by
  cases p <;> simp_arith

/-- Every `Expr` has positive size. -/
theorem sizeOf_pos_expr (e : Expr) : 0 < sizeOf e := by
  cases e <;> simp_arith

/-- A contributing index is within the list. -/
theorem findReqInList_lt_length :
    ∀ (ps : List Predicate) (i : Nat) (e : Expr) (cr : List Predicate),
      findReqInList ps = some (i, e, cr) → i < ps.length := by
  intro ps
  induction ps with
  | nil => intro i e cr h; simp [findReqInList] at h
  | cons p rest ih =>
    intro i e cr h
    simp only [findReqInList] at h
    cases hp : find_predicate_required_id p with
    | some pr =>
      obtain ⟨e0, cr0⟩ := pr
      rw [hp] at h
      simp at h
      obtain ⟨rfl, -, -⟩ := h
      simp
    | none =>
      rw [hp] at h
      cases hr : findReqInList rest with
      | none => rw [hr] at h; simp at h
      | some v =>
        rw [hr] at h
        obtain ⟨i', e', cr'⟩ := v
        simp at h
        obtain ⟨rfl, -, -⟩ := h
        have := ih i' e' cr' hr
        simp
        omega

/-- In range, `splice` is take-prefix, replacement, drop-suffix. -/
theorem splice_eq_parts {α : Type} (l : List α) (i : Nat) (v : List α)
    (h : i < l.length) : splice l i v = l.take i ++ v ++ l.drop (i + 1) := by
  unfold splice
  by_cases h1 : l.length = 1
  · have hi : i = 0 := by omega
    subst hi
    cases l with
    | nil => simp at h1
    | cons a t =>
      simp at h1
      subst h1
      simp
  · simp [h1]

/-- The size bound on the required-id extraction, proved jointly for the
predicate and list searches: what is extracted is strictly smaller than the
predicate it came from.  Used by the planner's termination argument. -/
theorem findReq_size_bound (n : Nat) :
    (∀ p : Predicate, sizeOf p ≤ n → ∀ e rest,
      find_predicate_required_id p = some (e, rest) →
      sizeOf e + sizeOf rest < sizeOf p) ∧
    (∀ ps : List Predicate, sizeOf ps ≤ n → ∀ i e cr,
      findReqInList ps = some (i, e, cr) →
      sizeOf e + sizeOf (splice ps i cr) < 1 + sizeOf ps) := by
  induction n using Nat.strong_induction_on with
  | _ n ih =>
    constructor
    · intro p hp e rest hfind
      match p with
      | .field name idp =>
        unfold find_predicate_required_id at hfind
        by_cases hn : name = "id"
        · simp only [hn, if_pos rfl] at hfind
          match idp with
          | .expr e2 =>
            simp at hfind
            obtain ⟨rfl, rfl⟩ := hfind
            simp
            omega
          | .field _ _ | .ends _ | .any _ | .all _ | .regex _ | .and _
          | .or _ | .not _ => simp at hfind
        · simp [hn] at hfind
      | .and preds =>
        unfold find_predicate_required_id at hfind
        cases hl : findReqInList preds with
        | none => rw [hl] at hfind; simp at hfind
        | some v =>
          rw [hl] at hfind
          obtain ⟨i, e', cr⟩ := v
          simp at hfind
          obtain ⟨rfl, rfl⟩ := hfind
          have hpssz : sizeOf (Predicate.and preds) = 1 + sizeOf preds := by simp
          have hlt : sizeOf preds ≤ n - 1 := by omega
          have hn1 : n - 1 < n := by
            have := sizeOf_pos_predicate (Predicate.and preds)
            omega
          have hb := (ih (n - 1) hn1).2 preds hlt i e' cr hl
          omega
      | .expr _ | .ends _ | .any _ | .all _ | .regex _ | .or _ | .not _ =>
        simp [find_predicate_required_id] at hfind
    · intro ps hps i e cr hfind
      match ps with
      | [] => simp [findReqInList] at hfind
      | p :: rest =>
        have hsz : sizeOf (p :: rest) = 1 + sizeOf p + sizeOf rest := by simp
        unfold findReqInList at hfind
        cases hp : find_predicate_required_id p with
        | some v =>
          rw [hp] at hfind
          obtain ⟨e0, cr0⟩ := v
          simp at hfind
          obtain ⟨rfl, rfl, rfl⟩ := hfind
          have hplt : sizeOf p ≤ n - 1 := by
            have := sizeOf_pos_predicate p
            omega
          have hn1 : n - 1 < n := by
            have := sizeOf_pos_predicate p
            omega
          have hbound := (ih (n - 1) hn1).1 p hplt e0 cr0 hp
          -- splice (p :: rest) 0 cr0 is cr0 ++ rest (or cr0 when rest is nil)
          cases rest with
          | nil =>
            simp only [splice, List.length_cons, List.length_nil]
            simp
            omega
          | cons r t =>
            rw [splice_eq_parts _ _ _ (by simp)]
            simp only [List.take_zero, List.nil_append, List.drop_succ_cons,
              List.drop_zero]
            have happ := sizeOf_list_append cr0 (r :: t)
            simp only [List.cons.sizeOf_spec] at *
            omega
        | none =>
          rw [hp] at hfind
          cases hr : findReqInList rest with
          | none => rw [hr] at hfind; simp at hfind
          | some v =>
            rw [hr] at hfind
            obtain ⟨i', e', cr'⟩ := v
            simp at hfind
            obtain ⟨rfl, rfl, rfl⟩ := hfind
            have hrl : sizeOf rest ≤ n - 1 := by
              have := sizeOf_pos_predicate p
              omega
            have hn1 : n - 1 < n := by
              have := sizeOf_pos_predicate p
              omega
            have hbound := (ih (n - 1) hn1).2 rest hrl i' e' cr' hr
            have hilt := findReqInList_lt_length rest i' e' cr' hr
            have hsp : splice (p :: rest) (i' + 1) cr' = p :: splice rest i' cr' := by
              rw [splice_eq_parts _ _ _ (by simp; omega)]
              rw [splice_eq_parts _ _ _ hilt]
              simp
            rw [hsp]
            simp only [List.cons.sizeOf_spec] at *
            omega

/-- The id expression extracted by `find_predicate_required_id` is smaller
than the predicate. -/
theorem findReq_expr_lt (p : Predicate) (e : Expr) (rest : List Predicate)
    (h : find_predicate_required_id p = some (e, rest)) :
    sizeOf e < sizeOf p := by
  have h1 := ((findReq_size_bound (sizeOf p)).1 p (le_refl _) e rest h)
  have h2 : 0 < sizeOf rest := by cases rest <;> simp_arith
  omega

/-- The remainder extracted by `find_predicate_required_id` is smaller than
the predicate. -/
theorem findReq_rest_lt (p : Predicate) (e : Expr) (rest : List Predicate)
    (h : find_predicate_required_id p = some (e, rest)) :
    sizeOf rest < sizeOf p := by
  have h1 := ((findReq_size_bound (sizeOf p)).1 p (le_refl _) e rest h)
  have h2 := sizeOf_pos_expr e
  omega

/-! ## The planner (src/query/run.rs `plan_expr` and friends) -/

/-- `plan_var` (run.rs lines 40-48): `root`/`nodes`/`map` plan to the
snapshot primitives, lexical references to the resolved location
(`plan_lexical`, fun.rs), and the remaining reserved names hit
`unimplemented!`. -/
def plan_var (a : StaticAnalysis) (v : Var) : Plan :=
  match v with
  | .root => .root
  | .nodes => .nodes
  | .map => .map
  | .lexical id _ =>
    match a.referents id with
    | .actualLoc i => .actual i
    | .capturedLoc i => .captured i
  | _ => .crash "plan_var"

/-- `BlahJunction::construct`: `And` for the true consonant, `Or` for the
false one. -/
def junction_construct (consonant : Bool) (plans : List PredPlan) : PredPlan :=
  if consonant then .andP plans else .orP plans

/-- The final match of `plan_filter` (run.rs lines 102-117): trivially true
leaves the stream plan unchanged, trivially false becomes an empty stream
literal, a real plan wraps the stream in a `Filter`. -/
def finish_filter (stream_plan : Plan) (cl : List VarLocation) :
    PlanOrTrivial → Plan
  | .trivial true => stream_plan
  | .trivial false => .streamLiteral []
  | .plan p => .filter stream_plan cl p

mutual

/-- `plan_expr` (run.rs lines 25-38). -/
def plan_expr (a : StaticAnalysis) (e : Expr) : Plan :=
  match e with
  | .number n => .constNum n
  | .stringLit s => .constStr s
  | .streamLiteral elts => .streamLiteral (plan_exprs a elts)
  | .predicateOp id stream op predicate => plan_stream a id op stream predicate
  | .var v => plan_var a v
  | .lambda id formals body => plan_lambda a id formals body
  | .app arg fn => plan_app a arg fn
termination_by 2 * sizeOf e + 1

/-- The element-wise planning inside the `StreamLiteral` arm. -/
def plan_exprs (a : StaticAnalysis) (es : List Expr) : List Plan :=
  match es with
  | [] => []
  | e :: rest => plan_expr a e :: plan_exprs a rest
termination_by 2 * sizeOf es + 1

/-- `plan_app` (run.rs lines 50-63): direct applications of
`edges`/`first`/`paths` specialise; anything else becomes a generic call
(`plan_activation`, fun.rs). -/
def plan_app (a : StaticAnalysis) (arg : Expr) (fn : Expr) : Plan :=
  let arg_plan := plan_expr a arg
  match fn with
  | .var .edges => .edges arg_plan
  | .var .first => .first arg_plan
  | .var .paths => .paths arg_plan
  | other => .callPlan arg_plan (plan_expr a other)
termination_by 2 * (sizeOf arg + sizeOf fn + 1)

/-- `plan_lambda` (fun.rs lines 560-568). -/
def plan_lambda (a : StaticAnalysis) (id : Nat) (formals : List String)
    (body : Expr) : Plan :=
  .lambdaPlan ("anonymous λ" ++ toString id) formals.length (plan_expr a body)
    (a.capture_lists id)
termination_by 2 * (sizeOf body + 1)

/-- `plan_stream` (run.rs lines 65-78): only `filter` is implemented. -/
def plan_stream (a : StaticAnalysis) (id : Nat) (op : PredicateOp)
    (stream : Expr) (predicate : Predicate) : Plan :=
  match op with
  | .find => .crash "PredicateOp::Find"
  | .filter => plan_filter a id stream predicate
  | .untilOp => .crash "PredicateOp::Until"
termination_by 2 * (sizeOf stream + sizeOf predicate) + 2

/-- `plan_filter` (run.rs lines 80-118): the id-hoist rewrite when the
stream is the `nodes` primitive and the predicate requires an id, then the
triviality fold of `finish_filter`. -/
def plan_filter (a : StaticAnalysis) (id : Nat) (stream : Expr)
    (predicate : Predicate) : Plan :=
  match stream with
  | .var .nodes =>
    match h : find_predicate_required_id predicate with
    | some (idExpr, remainder) =>
      finish_filter (.nodesById (plan_expr a idExpr)) (a.capture_lists id)
        (plan_junction a true remainder)
    | none =>
      finish_filter .nodes (a.capture_lists id) (plan_predicate a predicate)
  | s =>
    finish_filter (plan_expr a s) (a.capture_lists id) (plan_predicate a predicate)
termination_by 2 * (sizeOf stream + sizeOf predicate) + 1
decreasing_by
  all_goals simp_wf
  all_goals
    first
    | (have h1 := findReq_expr_lt predicate idExpr remainder h
       omega)
    | (have h1 := findReq_rest_lt predicate idExpr remainder h
       omega)
    | (have h1 := sizeOf_pos_expr (Expr.var Var.nodes)
       have h2 := sizeOf_pos_predicate predicate
       omega)
    | (have h1 := sizeOf_pos_expr s
       have h2 := sizeOf_pos_predicate predicate
       omega)

/-- `plan_predicate` (run.rs lines 141-170). -/
def plan_predicate (a : StaticAnalysis) (q : Predicate) : PlanOrTrivial :=
  match q with
  | .expr e => .plan (.equalPred (plan_expr a e))
  | .field name sub =>
    (plan_predicate a sub).map_plan (fun p => .fieldPred name p)
  | .ends sub => (plan_predicate a sub).map_plan (fun p => .ends p)
  | .any sub =>
    match plan_predicate a sub with
    | .plan p => .plan (.anyP p)
    | .trivial false => .trivial false
    | .trivial true => .plan .nonEmpty
  | .all sub =>
    match plan_predicate a sub with
    | .plan p => .plan (.allP p)
    | .trivial true => .trivial true
    | .trivial false => .plan .empty
  | .regex pat => .plan (.regex pat)
  | .and subs => plan_junction a true subs
  | .or subs => plan_junction a false subs
  | .not sub =>
    match plan_predicate a sub with
    | .trivial k => .trivial (!k)
    | .plan p => .plan (.notP p)
termination_by 2 * sizeOf q + 1

/-- `plan_junction` (run.rs lines 556-576): walk the subterms, dropping
trivial consonants, short-circuiting on a trivial dissonant, and
constructing the junction plan from what remains (trivially consonant when
nothing remains). -/
def plan_junction (a : StaticAnalysis) (consonant : Bool)
    (subs : List Predicate) : PlanOrTrivial :=
  match junction_go a consonant subs with
  | none => .trivial (!consonant)
  | some [] => .trivial consonant
  | some (p :: ps) => .plan (junction_construct consonant (p :: ps))
termination_by 2 * sizeOf subs + 1

/-- The subterm loop of `plan_junction`: `none` models the early dissonant
return, `some plans` the accumulated non-trivial plans. -/
def junction_go (a : StaticAnalysis) (consonant : Bool)
    (subs : List Predicate) : Option (List PredPlan) :=
  match subs with
  | [] => some []
  | s :: rest =>
    match plan_predicate a s with
    | .plan p =>
      match junction_go a consonant rest with
      | none => none
      | some ps => some (p :: ps)
    | .trivial k =>
      if k = !consonant then none
      else junction_go a consonant rest
termination_by 2 * sizeOf subs

end

/-! ## Snapshot decoding: scan and materialize (src/dump/mod.rs)

The protobuf message types are embedded structurally; string payloads are
modelled as `String` (the byte/UTF-16 representation plays no role in the
interning logic).  Offsets into the byte buffer are abstracted away: where
the Rust code stores a message's offset and later re-reads the message at
that trusted offset, the model stores the message itself. -/

/-- A deduplicable string field: raw bytes, a back-reference index, or
absent (one `OneOf…OrRef` per field in the generated protobuf types). -/
inductive OrRef where
  | given (s : String)
  | backref (i : Nat)
  | absent
  deriving Repr, DecidableEq

/-- A protobuf `Edge` message. -/
structure ProtoEdge where
  referent : Option Nat
  EdgeNameOrRef : OrRef
  deriving Repr, DecidableEq

/-- A protobuf `StackFrame` message: inline frame data (with its parent
chain) or a back-reference to an earlier frame. -/
inductive ProtoStackFrame where
  | data (id : Option Nat) (SourceOrRef : OrRef)
      (FunctionDisplayNameOrRef : OrRef) (parent : Option ProtoStackFrame)
  | ref (i : Nat)
  deriving Repr

/-- A protobuf `Node` message. -/
structure ProtoNode where
  id : Option Nat
  size : Option Nat
  edges : List ProtoEdge
  allocationStack : Option ProtoStackFrame
  coarseType : Nat
  TypeNameOrRef : OrRef
  JSObjectClassNameOrRef : OrRef
  ScriptFilenameOrRef : OrRef
  descriptiveTypeNameOrRef : OrRef
  deriving Repr

/-- The scan state: `CoreDump`'s two interning tables plus the id-keyed
message maps (`node_offsets`, `frame_offsets`, with the stored offset
replaced by what it decodes to). -/
structure ScanDump where
  one_byte_strings : List String
  two_byte_strings : List String
  node_offsets : List (Nat × ProtoNode)
  frame_offsets : List Nat
  deriving Repr

/-- `HashMap::insert` on an id-keyed message map. -/
def assocInsert (m : List (Nat × ProtoNode)) (k : Nat) (v : ProtoNode) :
    List (Nat × ProtoNode) :=
  if (m.find? (fun p => p.1 == k)).isSome then
    m.map (fun p => if p.1 == k then (p.1, v) else p)
  else
    m ++ [(k, v)]

/-- `StringTable::intern`: append the string when the field carries bytes,
do nothing otherwise. -/
def intern (table : List String) (d : OrRef) : List String :=
  match d with
  | .given s => table ++ [s]
  | _ => table

/-- `CoreDump::scan_frame`: walk the inline-data chain, recording frame ids
and interning the two-byte source and function-display-name strings. -/
def scan_frame (d : ScanDump) : Option ProtoStackFrame → ScanDump
  | some (.data id src fdn parent) =>
    let d := match id with
      | some i => { d with frame_offsets := d.frame_offsets ++ [i] }
      | none => d
    let d := { d with two_byte_strings := intern (intern d.two_byte_strings src) fdn }
    scan_frame d parent
  | _ => d

/-- The edge loop in `scan_node`: intern each edge name in order. -/
def internEdgeNames (table : List String) (edges : List ProtoEdge) : List String :=
  edges.foldl (fun t e => intern t e.EdgeNameOrRef) table

/-- `CoreDump::scan_node` (src/dump/mod.rs lines 182-196): record the id,
then intern in encounter order: type name, edge names, the allocation-stack
chain, object class name, script filename, descriptive type name. -/
def scan_node (d : ScanDump) (node : ProtoNode) : ScanDump :=
  let d := match node.id with
    | some id => { d with node_offsets := assocInsert d.node_offsets id node }
    | none => d
  let d := { d with two_byte_strings := intern d.two_byte_strings node.TypeNameOrRef }
  let d := { d with two_byte_strings := internEdgeNames d.two_byte_strings node.edges }
  let d := scan_frame d node.allocationStack
  let d := { d with one_byte_strings := intern d.one_byte_strings node.JSObjectClassNameOrRef }
  let d := { d with one_byte_strings := intern d.one_byte_strings node.ScriptFilenameOrRef }
  { d with two_byte_strings := intern d.two_byte_strings node.descriptiveTypeNameOrRef }

/-- The scan loop of `CoreDump::new`: scan every node message (the root node
message included) in stream order. -/
def scanAll (msgs : List ProtoNode) : ScanDump :=
  msgs.foldl scan_node ⟨[], [], [], []⟩

/-- `StringTable::get_string`: absent stays absent, bytes are taken as they
are, a back-reference indexes the table (`lookup` panics out of range). -/
def get_string (table : List String) (d : OrRef) : Except Error (Option String) :=
  match d with
  | .absent => .ok none
  | .given s => .ok (some s)
  | .backref i =>
    match table.get? i with
    | some s => .ok (some s)
    | none => .error (.panic "string table index out of range")

/-- `Edge::from_protobuf`. -/
def Edge.from_protobuf (d : ScanDump) (pe : ProtoEdge) : Except Error Edge := do
  let nm ← get_string d.two_byte_strings pe.EdgeNameOrRef
  pure { referent := pe.referent, name := nm }

/-- `Node::from_protobuf` (src/dump/mod.rs lines 417-432); the `id.unwrap()`
panic is the error case. -/
def Node.from_protobuf (d : ScanDump) (proto : ProtoNode) : Except Error Node :=
  match proto.id with
  | none => .error (.panic "proto.id.unwrap() failed")
  | some id => do
    let edges ← proto.edges.mapM (Edge.from_protobuf d)
    let tn ← get_string d.two_byte_strings proto.TypeNameOrRef
    let jcn ← get_string d.one_byte_strings proto.JSObjectClassNameOrRef
    let sf ← get_string d.one_byte_strings proto.ScriptFilenameOrRef
    let dtn ← get_string d.two_byte_strings proto.descriptiveTypeNameOrRef
    pure { id := id, size := proto.size, edges := edges,
           coarseType := proto.coarseType, typeName := tn,
           JSObjectClassName := jcn, scriptFilename := sf,
           descriptiveTypeName := dtn }

/-- The bytes a deduplicable field contributes to its interning table. -/
def givenOf (d : OrRef) : List String :=
  match d with
  | .given s => [s]
  | _ => []

/-- The two-byte strings a stack-frame chain contributes, in scan order. -/
def frameTwoByte : Option ProtoStackFrame → List String
  | some (.data _ src fdn parent) => givenOf src ++ givenOf fdn ++ frameTwoByte parent
  | _ => []

/-- The two-byte strings one node message contributes, in scan order. -/
def nodeTwoByte (n : ProtoNode) : List String :=
  givenOf n.TypeNameOrRef
    ++ n.edges.flatMap (fun e => givenOf e.EdgeNameOrRef)
    ++ frameTwoByte n.allocationStack
    ++ givenOf n.descriptiveTypeNameOrRef

/-- The one-byte strings one node message contributes, in scan order. -/
def nodeOneByte (n : ProtoNode) : List String :=
  givenOf n.JSObjectClassNameOrRef ++ givenOf n.ScriptFilenameOrRef

/-- How one deduplicable field must resolve against its table: absent stays
absent, bytes resolve to themselves, back-reference `i` to the `i`-th
table entry. -/
def resolvesTo (table : List String) (d : OrRef) (att : Option String) : Prop :=
  (d = .absent ∧ att = none) ∨
  (∃ s, d = .given s ∧ att = some s) ∨
  (∃ i s, d = .backref i ∧ table.get? i = some s ∧ att = some s)

/-! ## The command line (src/main.rs `run` / `main`)

`run`'s steps after the argument check — opening, mapping and decoding the
file — are abstracted into one oracle producing either an error chain or
the `Debug` rendering of the decoded metadata; `run` itself keeps the
argument-count gate and the success output. -/

/-- The filesystem/decoder oracle standing for `File::open`, `Mmap::map`
and `CoreDump::new`. -/
structure CliWorld where
  openAndDecode : String → Except String String

/-- `run` (src/main.rs lines 240-257): `args` is `args_os().skip(1)`; any
count other than one yields the usage error, otherwise the decoded
metadata line is printed.  The result is the list of stdout lines of a
successful run, or the error passed to `main`. -/
def cliRun (w : CliWorld) (args : List String) : Except String (List String) :=
  match args with
  | [file] =>
    match w.openAndDecode file with
    | .error e => .error e
    | .ok metadataRepr => .ok ["metadata: " ++ metadataRepr]
  | _ => .error "Usage: fxsnapshot FILE"

/-- `main` (src/main.rs lines 259-266): print the error chain to stderr and
exit 1 on failure, exit 0 otherwise.  Result: (exit code, stdout lines,
stderr lines). -/
def cliMain (w : CliWorld) (args : List String) : Nat × List String × List String :=
  match cliRun w args with
  | .ok out => (0, out, [])
  | .error e => (1, [], [e])

/-! ## The copy-on-write stream kernel (src/query/stream.rs)

`Stream` is `Rc<dyn CloneableStream>`; `clone` bumps the reference count and
`next` first replaces a shared underlying iterator by a private deep copy
(`rc_clone`) whenever `strong_count > 1`.  The model makes the `Rc` heap
explicit: a store of cells, each an iterator state with its strong count; a
stream handle is an index into the store.  The underlying iterator is any
pure state type `σ` with a step function (its own `Clone` yields an
independent value, which is what `rc_clone`'s deep copy relies on). -/

/-- One `Rc` cell: the boxed iterator state and its strong count. -/
structure RcCell (σ : Type) where
  state : σ
  strong : Nat
  deriving Repr

/-- The `Rc` heap. -/
abbrev RcStore (σ : Type) := List (RcCell σ)

/-- Replace the cell a handle points to. -/
def modifyCell {σ : Type} (store : RcStore σ) (h : Nat)
    (f : RcCell σ → RcCell σ) : RcStore σ :=
  match store.get? h with
  | some c => store.set h (f c)
  | none => store

/-- `Stream::clone` (the derived `Clone` on `Stream` clones the `Rc`):
increment the strong count; the new handle aliases the same cell. -/
def cowClone {σ : Type} (store : RcStore σ) (h : Nat) : RcStore σ :=
  modifyCell store h (fun c => ⟨c.state, c.strong + 1⟩)

/-- `Stream::next` (src/query/stream.rs lines 38-49): when the cell is
shared, first point the handle at a fresh private copy of the iterator
state (dropping one count from the old cell), then step the now-private
iterator in place.  Returns the updated store, the handle's (possibly new)
cell index, and the step result; `none` only for a dangling handle, which
never occurs. -/
def cowNext {V E σ : Type} (step : σ → Except E (Option V) × σ)
    (store : RcStore σ) (h : Nat) :
    Option (RcStore σ × Nat × Except E (Option V)) :=
  match store.get? h with
  | none => none
  | some c =>
    if 1 < c.strong then
      let store1 := store.set h ⟨c.state, c.strong - 1⟩
      let h2 := store1.length
      let store2 := store1 ++ [⟨c.state, 1⟩]
      let (res, s2) := step c.state
      some (store2.set h2 ⟨s2, 1⟩, h2, res)
    else
      let (res, s2) := step c.state
      some (store.set h ⟨s2, c.strong⟩, h, res)

/-- The reference behaviour: `n` next calls on a private iterator. -/
def pureNexts {V E σ : Type} (step : σ → Except E (Option V) × σ) :
    σ → Nat → List (Except E (Option V))
  | _, 0 => []
  | s, n + 1 =>
    let (r, s2) := step s
    r :: pureNexts step s2 n

/-- Two stream handles over one store (the original and its clone). -/
structure CowWorld (σ : Type) where
  store : RcStore σ
  hA : Nat
  hB : Nat

/-- Advance one of the two handles (`true` = A). -/
def worldStep {V E σ : Type} (step : σ → Except E (Option V) × σ)
    (w : CowWorld σ) (who : Bool) :
    Option (CowWorld σ × Except E (Option V)) :=
  if who then
    match cowNext step w.store w.hA with
    | none => none
    | some (store, h, res) => some (⟨store, h, w.hB⟩, res)
  else
    match cowNext step w.store w.hB with
    | none => none
    | some (store, h, res) => some (⟨store, w.hA, h⟩, res)

/-- Run an interleaving of next calls on the two handles, collecting each
handle's results in order (`none` only from dangling handles). -/
def runChoices {V E σ : Type} (step : σ → Except E (Option V) × σ) :
    CowWorld σ → List Bool →
    Option (List (Except E (Option V)) × List (Except E (Option V)))
  | _, [] => some ([], [])
  | w, c :: rest =>
    match worldStep step w c with
    | none => none
    | some (w2, r) =>
      match runChoices step w2 rest with
      | none => none
      | some (ra, rb) =>
        if c then some (r :: ra, rb) else some (ra, r :: rb)

/-! # Theorems -/

/-- C10: run-time value equality compares node values by id alone (size,
edges, coarse type and all name attributes are ignored); two stream values
or two function values never compare equal; and values of different
variants never compare equal. -/
theorem c10_value_equality :
    (∀ n m : Node, valueEq (.node n) (.node m) = (n.id == m.id)) ∧
    (∀ items1 items2 : List VRes,
      valueEq (.stream items1) (.stream items2) = false) ∧
    (∀ f g : FnVal, valueEq (.fn f) (.fn g) = false) ∧
    (∀ v w : Value, v.type_name ≠ w.type_name → valueEq v w = false) := by
  refine ⟨fun n m => rfl, fun i1 i2 => rfl, fun f g => rfl, fun v w h => ?_⟩
  cases v <;> cases w <;> simp_all [valueEq, Value.type_name]

/-- C10 witness: two concrete values of different variants compare
unequal. -/
theorem c10_value_equality_witness :
    valueEq (.number 1) (.string "a") = false :=
  c10_value_equality.2.2.2 (.number 1) (.string "a") (by decide)

/-- C9 counterexample: with the two positional arguments the claim calls
for, the checked-in `main` exits 1 after the one-line usage message (the
program accepts exactly one argument); with a single argument and a
readable snapshot it instead succeeds, printing the metadata line. -/
theorem c9_cli_counterexample :
    cliMain ⟨fun _ => .ok "Metadata"⟩ ["snap", "query"]
        = (1, [], ["Usage: fxsnapshot FILE"]) ∧
    cliMain ⟨fun _ => .ok "Metadata"⟩ ["snap"]
        = (0, ["metadata: Metadata"], []) := by
  constructor <;> rfl

/-- C9 (amended): the program requires exactly one positional argument,
FILE; with any other argument count it exits with status 1 after writing
the one-line usage message, and on success (one argument, file opened and
decoded) it writes the metadata line to standard output and exits zero. -/
theorem c9_cli_arity (w : CliWorld) (args : List String) :
    (args.length ≠ 1 →
      cliMain w args = (1, [], ["Usage: fxsnapshot FILE"])) ∧
    (∀ file out, args = [file] → w.openAndDecode file = .ok out →
      cliMain w args = (0, ["metadata: " ++ out], [])) := by
  constructor
  · intro h
    match args with
    | [] => rfl
    | [a] => simp at h
    | a :: b :: t => rfl
  · intro file out hargs hopen
    subst hargs
    simp [cliMain, cliRun, hopen]

/-- C9 witness: the amended theorem applied at zero arguments and at one
argument with a decodable file. -/
theorem c9_cli_arity_witness :
    cliMain ⟨fun _ => .ok "M"⟩ [] = (1, [], ["Usage: fxsnapshot FILE"]) ∧
    cliMain ⟨fun _ => .ok "M"⟩ ["f"] = (0, ["metadata: M"], []) :=
  ⟨(c9_cli_arity ⟨fun _ => .ok "M"⟩ []).1 (by decide),
   (c9_cli_arity ⟨fun _ => .ok "M"⟩ ["f"]).2 "f" "M" rfl rfl⟩

/-- C1 counterexample: a two-argument function partially applied to the
value 1 and then called with the value 2 is invoked on the argument list
`[2, 1]` — the new argument first, the existing argument appended after it
(and consumed first, from the right end) — not on `[1, 2]` as prepending
the existing arguments would give.  The function body returns its first
actual, telling the two orders apart. -/
theorem c1_partial_application_counterexample :
    (callFn ⟨⟨[], ⟨0, none, [], 0, none, none, none, none⟩⟩, fun _ _ => false⟩ 3
        (.closure "f" 2 (.actual 0) []) [.number 1]
      = .ok (.fn (.partApp (.closure "f" 2 (.actual 0) []) 1 [.number 1]))) ∧
    (callFn ⟨⟨[], ⟨0, none, [], 0, none, none, none, none⟩⟩, fun _ _ => false⟩ 3
        (.partApp (.closure "f" 2 (.actual 0) []) 1 [.number 1]) [.number 2]
      = .ok (.number 2)) ∧
    (callExactArity ⟨⟨[], ⟨0, none, [], 0, none, none, none, none⟩⟩, fun _ _ => false⟩ 2
        (.closure "f" 2 (.actual 0) []) [.number 1, .number 2]
      = .ok (.number 1)) ∧
    Value.number 2 ≠ Value.number 1 := by
  refine ⟨?_, ?_, ?_, by simp⟩
  · simp [callFn, FnVal.arity]
  · simp [callFn, callExactArity, runPlan, FnVal.arity]
  · simp [callExactArity, runPlan]

/-- C1 (amended): for a function value `f` of arity `n > 0` under a generic
call with `actuals` supplied left to right: fewer than `n` arguments yield a
partial-application function whose arity is the deficit and which, when
later called with the missing arguments, invokes `f` on the new arguments
followed by the existing ones (the existing arguments are appended after
the new, keeping them rightmost); exactly `n` invokes `f` on them; more
than `n` invokes `f` on the `n` rightmost and then calls the result on the
remaining arguments, erring with the not-a-function error if that result is
not a function; and a generic call whose function position evaluates to a
non-function value yields the not-a-function error. -/
theorem c1_generic_call (cx : Context) (fuel : Nat) (f : FnVal)
    (actuals : List Value) :
    (0 < f.arity → actuals.length < f.arity →
      callFn cx (fuel + 1) f actuals
          = .ok (.fn (.partApp f (f.arity - actuals.length) actuals)) ∧
      (FnVal.partApp f (f.arity - actuals.length) actuals).arity
          = f.arity - actuals.length) ∧
    (∀ k saved, 0 < k → actuals.length = k →
      callFn cx (fuel + 1) (.partApp f k saved) actuals
          = callExactArity cx fuel f (actuals ++ saved)) ∧
    (0 < f.arity → actuals.length = f.arity →
      callFn cx (fuel + 1) f actuals = callExactArity cx fuel f actuals) ∧
    (0 < f.arity → f.arity < actuals.length →
      callFn cx (fuel + 1) f actuals
          = match callExactArity cx fuel f
                (actuals.drop (actuals.length - f.arity)) with
            | .error e => .error e
            | .ok (.fn g) =>
              callFn cx fuel g (actuals.take (actuals.length - f.arity))
            | .ok _ => .error .notAFunction) ∧
    (∀ argPlan funPlan act argv funv,
      runPlan cx fuel argPlan act = .ok argv →
      runPlan cx fuel funPlan act = .ok funv →
      (∀ g : FnVal, funv ≠ .fn g) →
      runPlan cx fuel (.callPlan argPlan funPlan) act
          = .error .notAFunction) := by
  refine ⟨?_, ?_, ?_, ?_, ?_⟩
  · intro hn hlt
    refine ⟨?_, rfl⟩
    simp only [callFn]
    rw [if_neg (by omega), if_pos hlt]
  · intro k saved hk hlen
    simp only [callFn, FnVal.arity]
    rw [if_neg (by omega), if_neg (by omega)]
    have hz : actuals.length - k = 0 := by omega
    rw [hz]
    simp only [List.drop_zero, List.take_zero, List.isEmpty_nil]
    simp only [callExactArity]
    cases hx : callExactArity cx fuel f (actuals ++ saved) <;> simp
  · intro hn hlen
    simp only [callFn]
    rw [if_neg (by omega), if_neg (by omega)]
    have hz : actuals.length - f.arity = 0 := by omega
    rw [hz]
    simp only [List.drop_zero, List.take_zero, List.isEmpty_nil]
    cases hx : callExactArity cx fuel f actuals <;> simp
  · intro hn hlt
    simp only [callFn]
    rw [if_neg (by omega), if_neg (by omega)]
    cases hv : callExactArity cx fuel f
        (actuals.drop (actuals.length - f.arity)) with
    | error e => simp
    | ok v =>
      simp only
      have hne : (List.take (actuals.length - f.arity) actuals).isEmpty ≠ true := by
        intro hE
        rw [List.isEmpty_eq_true, List.take_eq_nil_iff] at hE
        rcases hE with h | h
        · omega
        · rw [h] at hlt
          simp at hlt
      rw [if_neg hne]
      cases v <;> simp
  · intro argPlan funPlan act argv funv harg hfun hnf
    rw [runPlan]
    simp only [harg, hfun]

/-- C1 witness: the amended theorem applied to a concrete two-argument
closure given one argument. -/
theorem c1_generic_call_witness :
    callFn ⟨⟨[], ⟨0, none, [], 0, none, none, none, none⟩⟩, fun _ _ => false⟩ 3
        (.closure "f" 2 (.actual 0) []) [.number 1]
      = .ok (.fn (.partApp (.closure "f" 2 (.actual 0) []) 1 [.number 1])) ∧
    (FnVal.partApp (.closure "f" 2 (.actual 0) []) 1 [.number 1]).arity = 1 :=
  (c1_generic_call
    ⟨⟨[], ⟨0, none, [], 0, none, none, none, none⟩⟩, fun _ _ => false⟩ 2
    (.closure "f" 2 (.actual 0) []) [.number 1]).1 (by decide) (by decide)

/-- The junction subterm walk short-circuits exactly when some subterm plans
to the trivial dissonant. -/
theorem junction_go_eq_none_iff (a : StaticAnalysis) (c : Bool) :
    ∀ subs : List Predicate,
      junction_go a c subs = none ↔
        ∃ s ∈ subs, plan_predicate a s = .trivial (!c) := by
  intro subs
  induction subs with
  | nil => simp [junction_go]
  | cons s rest ih =>
    rw [junction_go]
    cases hs : plan_predicate a s with
    | plan p =>
      cases hr : junction_go a c rest with
      | none =>
        constructor
        · intro _
          obtain ⟨t, ht, hp⟩ := ih.mp hr
          exact ⟨t, List.mem_cons_of_mem s ht, hp⟩
        · intro _; rfl
      | some ps =>
        constructor
        · intro h; simp at h
        · rintro ⟨t, hmem, hp⟩
          rcases List.mem_cons.mp hmem with rfl | hmem
          · rw [hs] at hp; simp at hp
          · have hn := ih.mpr ⟨t, hmem, hp⟩
            rw [hn] at hr
            simp at hr
    | trivial k =>
      show (if k = !c then none else junction_go a c rest) = none ↔ _
      by_cases hk : k = !c
      · rw [if_pos hk]
        constructor
        · intro _
          exact ⟨s, List.mem_cons_self s rest, by rw [hs, hk]⟩
        · intro _; rfl
      · rw [if_neg hk]
        constructor
        · intro h
          obtain ⟨t, ht, hp⟩ := ih.mp h
          exact ⟨t, List.mem_cons_of_mem s ht, hp⟩
        · rintro ⟨t, hmem, hp⟩
          rcases List.mem_cons.mp hmem with rfl | hmem
          · rw [hs] at hp
            simp at hp
            exact absurd hp hk
          · exact ih.mpr ⟨t, hmem, hp⟩

/-- When the junction walk does not short-circuit, it returns exactly the
plans of the non-trivial subterms, in order. -/
theorem junction_go_eq_some (a : StaticAnalysis) (c : Bool) :
    ∀ (subs : List Predicate) (ps : List PredPlan),
      junction_go a c subs = some ps →
      ps = subs.filterMap (fun s =>
        match plan_predicate a s with
        | .plan p => some p
        | .trivial _ => none) := by
  intro subs
  induction subs with
  | nil => intro ps h; simp [junction_go] at h; simp [← h]
  | cons s rest ih =>
    intro ps h
    rw [junction_go] at h
    cases hs : plan_predicate a s with
    | plan p =>
      rw [hs] at h
      simp only [] at h
      cases hr : junction_go a c rest with
      | none => rw [hr] at h; simp at h
      | some qs =>
        rw [hr] at h
        simp at h
        subst h
        simp [List.filterMap_cons, hs]
        exact ih qs hr
    | trivial k =>
      rw [hs] at h
      simp only [] at h
      by_cases hk : k = !c
      · rw [if_pos hk] at h; simp at h
      · rw [if_neg hk] at h
        simp [List.filterMap_cons, hs]
        exact ih ps h

/-- C4: junction planning behaves as a fold.  The empty conjunction or
disjunction plans to the trivial consonant; any subterm planning to the
trivial dissonant makes the whole junction trivially dissonant; otherwise
the trivially-consonant subterms are dropped and the junction is built from
the remaining plans, degenerating to the trivial consonant when none
remain. -/
theorem c4_junction_fold (a : StaticAnalysis) (consonant : Bool)
    (subs : List Predicate) :
    (plan_junction a consonant [] = .trivial consonant) ∧
    ((∃ s ∈ subs, plan_predicate a s = .trivial (!consonant)) →
      plan_junction a consonant subs = .trivial (!consonant)) ∧
    ((∀ s ∈ subs, plan_predicate a s ≠ .trivial (!consonant)) →
      plan_junction a consonant subs =
        match subs.filterMap (fun s =>
            match plan_predicate a s with
            | .plan p => some p
            | .trivial _ => none) with
        | [] => .trivial consonant
        | p :: ps => .plan (junction_construct consonant (p :: ps))) := by
  refine ⟨by rw [plan_junction]; simp [junction_go], ?_, ?_⟩
  · intro hex
    rw [plan_junction]
    rw [← junction_go_eq_none_iff a consonant subs] at hex
    rw [hex]
  · intro hall
    rw [plan_junction]
    cases hgo : junction_go a consonant subs with
    | none =>
      rw [junction_go_eq_none_iff] at hgo
      obtain ⟨s, hmem, hp⟩ := hgo
      exact absurd hp (hall s hmem)
    | some ps =>
      have := junction_go_eq_some a consonant subs ps hgo
      subst this
      cases h : subs.filterMap (fun s =>
          match plan_predicate a s with
          | .plan p => some p
          | .trivial _ => none) with
      | nil => simp [h]
      | cons p qs => simp [h]

/-- C4 witness: the fold theorem applied to the concrete conjunction
`And([true-like, regex])`: the trivially-true subterm (an empty nested
conjunction) is dropped and the junction keeps the regex plan. -/
theorem c4_junction_fold_witness :
    plan_junction ⟨fun _ => .actualLoc 0, fun _ => []⟩ true [] = .trivial true ∧
    plan_junction ⟨fun _ => .actualLoc 0, fun _ => []⟩ true [.and [], .regex "r"]
      = .plan (.andP [.regex "r"]) := by
  have h := c4_junction_fold ⟨fun _ => .actualLoc 0, fun _ => []⟩ true
    [.and [], .regex "r"]
  refine ⟨h.1, ?_⟩
  have h3 := h.2.2 (by
    intro s hmem
    rcases List.mem_cons.mp hmem with rfl | hmem2
    · simp [plan_predicate, plan_junction, junction_go]
    · rcases List.mem_cons.mp hmem2 with rfl | h3
      · simp [plan_predicate]
      · simp at h3)
  rw [h3]
  simp [plan_predicate, plan_junction, junction_go, junction_construct]

/-- C8 counterexample: planning the one-element conjunction of a regex
predicate yields a one-element `And` plan wrapping the regex plan, which is
not structurally identical to the plan of the regex alone. -/
theorem c8_single_conjunction_counterexample :
    plan_predicate ⟨fun _ => .actualLoc 0, fun _ => []⟩ (.and [.regex "x"])
      = .plan (.andP [.regex "x"]) ∧
    plan_predicate ⟨fun _ => .actualLoc 0, fun _ => []⟩ (.regex "x")
      = .plan (.regex "x") ∧
    PredPlan.andP [.regex "x"] ≠ PredPlan.regex "x" := by
  refine ⟨?_, ?_, fun h => PredPlan.noConfusion h⟩
  · simp [plan_predicate, plan_junction, junction_go, junction_construct]
  · simp [plan_predicate]

/-- C8 (amended): a one-element conjunction `And([P])` plans to the same
trivial result as `P` when `P` is trivial, and otherwise to a one-element
`And` plan wrapping `P`'s plan — not structurally identical to it, but
testing the same as `P`'s plan against every value in every activation. -/
theorem c8_single_conjunction (a : StaticAnalysis) (P : Predicate) :
    (∀ k, plan_predicate a P = .trivial k →
      plan_predicate a (.and [P]) = .trivial k) ∧
    (∀ p, plan_predicate a P = .plan p →
      plan_predicate a (.and [P]) = .plan (.andP [p]) ∧
      ∀ cx fuel v act,
        testPred cx fuel (.andP [p]) v act = testPred cx fuel p v act) := by
  constructor
  · intro k hk
    rw [plan_predicate, plan_junction, junction_go, hk]
    show (match (if k = !true then none else junction_go a true []) with
          | none => PlanOrTrivial.trivial (!true)
          | some [] => PlanOrTrivial.trivial true
          | some (p :: ps) =>
            PlanOrTrivial.plan (junction_construct true (p :: ps))) = _
    cases k with
    | false => rfl
    | true => rw [if_neg (by simp), junction_go]
  · intro p hp
    constructor
    · rw [plan_predicate, plan_junction, junction_go, hp]
      show (match (match junction_go a true [] with
                   | none => none
                   | some ps => some (p :: ps)) with
            | none => PlanOrTrivial.trivial (!true)
            | some [] => PlanOrTrivial.trivial true
            | some (q :: qs) =>
              PlanOrTrivial.plan (junction_construct true (q :: qs))) = _
      rw [junction_go]
      rfl
    · intro cx fuel v act
      rw [testPred, testAndList]
      cases ht : testPred cx fuel p v act with
      | error e => rfl
      | ok b => cases b with
        | true => rw [testAndList]
        | false => rfl

/-- C8 witness: the amended theorem applied to the regex predicate and a
concrete string value. -/
theorem c8_single_conjunction_witness :
    plan_predicate ⟨fun _ => .actualLoc 0, fun _ => []⟩ (.and [.regex "x"])
      = .plan (.andP [.regex "x"]) ∧
    testPred ⟨⟨[], ⟨0, none, [], 0, none, none, none, none⟩⟩, fun _ _ => true⟩ 1
        (.andP [.regex "x"]) (.string "s") ⟨[], []⟩
      = testPred ⟨⟨[], ⟨0, none, [], 0, none, none, none, none⟩⟩, fun _ _ => true⟩ 1
        (.regex "x") (.string "s") ⟨[], []⟩ := by
  have h := (c8_single_conjunction ⟨fun _ => .actualLoc 0, fun _ => []⟩
    (.regex "x")).2 (.regex "x") (by simp [plan_predicate])
  exact ⟨h.1, h.2 _ 1 (.string "s") ⟨[], []⟩⟩

/-- The contributing element sits at the reported index. -/
theorem findReqInList_get :
    ∀ (ps : List Predicate) (i : Nat) (e : Expr) (cr : List Predicate),
      findReqInList ps = some (i, e, cr) →
      ∃ pi, ps.get? i = some pi ∧ find_predicate_required_id pi = some (e, cr) := by
  intro ps
  induction ps with
  | nil => intro i e cr h; simp [findReqInList] at h
  | cons p rest ih =>
    intro i e cr h
    rw [findReqInList] at h
    cases hp : find_predicate_required_id p with
    | some v =>
      obtain ⟨e0, cr0⟩ := v
      rw [hp] at h
      simp at h
      obtain ⟨rfl, rfl, rfl⟩ := h
      exact ⟨p, rfl, hp⟩
    | none =>
      rw [hp] at h
      simp only [] at h
      cases hr : findReqInList rest with
      | none => rw [hr] at h; simp at h
      | some v =>
        obtain ⟨i', e', cr'⟩ := v
        rw [hr] at h
        simp at h
        obtain ⟨rfl, rfl, rfl⟩ := h
        obtain ⟨pi, hget, hfind⟩ := ih i' e' cr' hr
        exact ⟨pi, by simpa using hget, hfind⟩

/-- A predicate with a required id never plans to trivially true: the
`Field("id", …)` subterm always contributes a non-trivial plan. -/
theorem findReq_not_trivial_true (n : Nat) :
    ∀ p : Predicate, sizeOf p ≤ n → ∀ (a : StaticAnalysis) e rest,
      find_predicate_required_id p = some (e, rest) →
      plan_predicate a p ≠ .trivial true := by
  induction n using Nat.strong_induction_on with
  | _ n ih =>
    intro p hp a e rest hfind
    match p with
    | .field name idp =>
      unfold find_predicate_required_id at hfind
      by_cases hn : name = "id"
      · simp only [hn, if_pos rfl] at hfind
        match idp with
        | .expr e2 =>
          rw [plan_predicate, plan_predicate]
          simp [PlanOrTrivial.map_plan]
        | .field _ _ | .ends _ | .any _ | .all _ | .regex _ | .and _
        | .or _ | .not _ => simp at hfind
      · simp [hn] at hfind
    | .and preds =>
      unfold find_predicate_required_id at hfind
      cases hl : findReqInList preds with
      | none => rw [hl] at hfind; simp at hfind
      | some v =>
        obtain ⟨i, e', cr⟩ := v
        rw [hl] at hfind
        intro htriv
        rw [plan_predicate] at htriv
        rw [plan_junction] at htriv
        cases hgo : junction_go a true preds with
        | none => rw [hgo] at htriv; simp at htriv
        | some ps =>
          rw [hgo] at htriv
          cases ps with
          | cons q qs => simp [junction_construct] at htriv
          | nil =>
            have hnil := junction_go_eq_some a true preds [] hgo
            have hall : ∀ s ∈ preds,
                (match plan_predicate a s with
                 | PlanOrTrivial.plan p => some p
                 | PlanOrTrivial.trivial _ => none) = none :=
              List.filterMap_eq_nil_iff.mp hnil.symm
            obtain ⟨pi, hget, hfi⟩ := findReqInList_get preds i e' cr hl
            have hmem : pi ∈ preds := List.get?_mem hget
            have hsz : sizeOf pi ≤ n - 1 := by
              have h1 := List.sizeOf_lt_of_mem hmem
              have h2 : sizeOf (Predicate.and preds) = 1 + sizeOf preds := by simp
              omega
            have hn1 : n - 1 < n := by
              have := sizeOf_pos_predicate (Predicate.and preds)
              omega
            have hne := ih (n - 1) hn1 pi hsz a e' cr hfi
            -- pi must plan trivially: its filterMap entry is none
            have := hall pi hmem
            cases hq : plan_predicate a pi with
            | plan q => rw [hq] at this; simp at this
            | trivial k =>
              cases k with
              | true => exact hne hq
              | false =>
                -- a trivially false subterm short-circuits junction_go to none
                have : junction_go a true preds = none :=
                  (junction_go_eq_none_iff a true preds).mpr ⟨pi, hmem, by simpa using hq⟩
                rw [this] at hgo
                simp at hgo

/-- When a predicate with a required id plans to trivially false, the
junction of its extracted remainder also plans to trivially false: the
dissonant subterm survives the splice. -/
theorem findReq_trivial_false (n : Nat) :
    ∀ p : Predicate, sizeOf p ≤ n → ∀ (a : StaticAnalysis) e rest,
      find_predicate_required_id p = some (e, rest) →
      plan_predicate a p = .trivial false →
      plan_junction a true rest = .trivial false := by
  induction n using Nat.strong_induction_on with
  | _ n ih =>
    intro p hp a e rest hfind htriv
    match p with
    | .field name idp =>
      unfold find_predicate_required_id at hfind
      by_cases hn : name = "id"
      · simp only [hn, if_pos rfl] at hfind
        match idp with
        | .expr e2 =>
          rw [plan_predicate, plan_predicate] at htriv
          simp [PlanOrTrivial.map_plan] at htriv
        | .field _ _ | .ends _ | .any _ | .all _ | .regex _ | .and _
        | .or _ | .not _ => simp at hfind
      · simp [hn] at hfind
    | .and preds =>
      unfold find_predicate_required_id at hfind
      cases hl : findReqInList preds with
      | none => rw [hl] at hfind; simp at hfind
      | some v =>
        obtain ⟨i, e', cr⟩ := v
        rw [hl] at hfind
        simp at hfind
        obtain ⟨rfl, rfl⟩ := hfind
        rw [plan_predicate, plan_junction] at htriv
        cases hgo : junction_go a true preds with
        | some ps =>
          rw [hgo] at htriv
          cases ps with
          | nil => simp at htriv
          | cons q qs => simp [junction_construct] at htriv
        | none =>
          obtain ⟨s, hmem, hps⟩ := (junction_go_eq_none_iff a true preds).mp hgo
          simp only [Bool.not_true] at hps
          -- locate s at an index j
          obtain ⟨⟨j, hjlt⟩, hj⟩ := List.get_of_mem hmem
          obtain ⟨pi, hget, hfi⟩ := findReqInList_get preds i e' cr hl
          have hilt := findReqInList_lt_length preds i e' cr hl
          rw [plan_junction]
          have hgoal : junction_go a true (splice preds i cr) = none := by
            rw [junction_go_eq_none_iff]
            rw [splice_eq_parts preds i cr hilt]
            by_cases hji : j = i
            · -- the dissonant subterm is the contributing one: recurse into cr
              subst hji
              have hpi : pi = s := by
                rw [List.get?_eq_get hjlt] at hget
                simp at hget
                rw [← hj, List.get_eq_getElem]
                exact hget.symm
              rw [hpi] at hfi
              have hsz : sizeOf s ≤ n - 1 := by
                have h1 := List.sizeOf_lt_of_mem hmem
                have h2 : sizeOf (Predicate.and preds) = 1 + sizeOf preds := by
                  simp
                omega
              have hn1 : n - 1 < n := by
                have := sizeOf_pos_predicate (Predicate.and preds)
                omega
              have hjf := ih (n - 1) hn1 s hsz a e' cr hfi hps
              rw [plan_junction] at hjf
              cases hgo2 : junction_go a true cr with
              | some ps2 =>
                rw [hgo2] at hjf
                cases ps2 with
                | nil => simp at hjf
                | cons q qs => simp [junction_construct] at hjf
              | none =>
                obtain ⟨t, htmem, htp⟩ := (junction_go_eq_none_iff a true cr).mp hgo2
                exact ⟨t, by simp [htmem], htp⟩
            · -- the dissonant subterm is at another index: it survives the splice
              refine ⟨s, ?_, by simpa using hps⟩
              simp only [List.mem_append]
              by_cases hlt : j < i
              · left; left
                have : (preds.take i).get? j = some s := by
                  rw [List.get?_take hlt, List.get?_eq_get hjlt, hj]
                exact List.get?_mem this
              · right
                have hgt : i + 1 ≤ j := by omega
                have : (preds.drop (i + 1)).get? (j - (i + 1)) = some s := by
                  rw [List.get?_drop]
                  rw [show i + 1 + (j - (i + 1)) = j by omega]
                  rw [List.get?_eq_get hjlt, hj]
                exact List.get?_mem this
          rw [hgoal]
          simp

/-- `plan_filter` either plans without hoisting (the predicate plan applied
to the planned stream) or hoists a required id out of a filter of the
`nodes` primitive. -/
theorem plan_filter_cases (a : StaticAnalysis) (idl : Nat) (s : Expr)
    (P : Predicate) :
    plan_filter a idl s P
        = finish_filter (plan_expr a s) (a.capture_lists idl)
            (plan_predicate a P) ∨
    (s = .var .nodes ∧ ∃ e rest,
      find_predicate_required_id P = some (e, rest) ∧
      plan_filter a idl s P
          = finish_filter (.nodesById (plan_expr a e)) (a.capture_lists idl)
              (plan_junction a true rest)) := by
  match s with
  | .number n => left; rw [plan_filter]; simp
  | .stringLit str => left; rw [plan_filter]; simp
  | .streamLiteral elts => left; rw [plan_filter]; simp
  | .predicateOp i st op pr => left; rw [plan_filter]; simp
  | .lambda i f b => left; rw [plan_filter]; simp
  | .app arg fn => left; rw [plan_filter]; simp
  | .var .edges => left; rw [plan_filter]; simp
  | .var .first => left; rw [plan_filter]; simp
  | .var .paths => left; rw [plan_filter]; simp
  | .var .root => left; rw [plan_filter]; simp
  | .var .map => left; rw [plan_filter]; simp
  | .var (.lexical i nm) => left; rw [plan_filter]; simp
  | .var .nodes =>
    cases hf : find_predicate_required_id P with
    | none =>
      left
      rw [plan_filter, hf]
      rw [show plan_expr a (.var .nodes) = Plan.nodes by rw [plan_expr]; rfl]
    | some v =>
      obtain ⟨e, rest⟩ := v
      right
      exact ⟨rfl, e, rest, rfl, by rw [plan_filter, hf]⟩

/-- C5: filtering folds away trivial predicates.  If the predicate plans to
trivially true, the planned filter is the plan of the stream itself, so
executing it yields exactly what the stream yields; if it plans to
trivially false, the planned filter is an empty stream literal, whose
execution yields the empty stream. -/
theorem c5_trivial_predicate_filter (a : StaticAnalysis) (idl : Nat)
    (s : Expr) (P : Predicate) :
    (plan_predicate a P = .trivial true →
      plan_filter a idl s P = plan_expr a s ∧
      ∀ cx fuel act, runPlan cx fuel (plan_filter a idl s P) act
          = runPlan cx fuel (plan_expr a s) act) ∧
    (plan_predicate a P = .trivial false →
      plan_filter a idl s P = .streamLiteral [] ∧
      ∀ cx fuel act, runPlan cx fuel (plan_filter a idl s P) act
          = .ok (.stream [])) := by
  constructor
  · intro htriv
    have heq : plan_filter a idl s P = plan_expr a s := by
      rcases plan_filter_cases a idl s P with h | ⟨hs, e, rest, hf, h⟩
      · rw [h, htriv]; rfl
      · exact absurd htriv
          (findReq_not_trivial_true (sizeOf P) P (le_refl _) a e rest hf)
    exact ⟨heq, fun cx fuel act => by rw [heq]⟩
  · intro htriv
    have heq : plan_filter a idl s P = .streamLiteral [] := by
      rcases plan_filter_cases a idl s P with h | ⟨hs, e, rest, hf, h⟩
      · rw [h, htriv]; rfl
      · rw [h, findReq_trivial_false (sizeOf P) P (le_refl _) a e rest hf htriv]
        rfl
    refine ⟨heq, fun cx fuel act => ?_⟩
    rw [heq, runPlan]
    rw [runList]

/-- C5 witness: the empty conjunction (trivially true) leaves the `root`
stream plan unchanged; its negation (trivially false) plans to the empty
stream literal and executes to the empty stream. -/
theorem c5_trivial_predicate_filter_witness :
    plan_filter ⟨fun _ => .actualLoc 0, fun _ => []⟩ 0 (.var .root) (.and [])
      = plan_expr ⟨fun _ => .actualLoc 0, fun _ => []⟩ (.var .root) ∧
    plan_filter ⟨fun _ => .actualLoc 0, fun _ => []⟩ 0 (.var .root)
        (.not (.and []))
      = .streamLiteral [] ∧
    runPlan ⟨⟨[], ⟨0, none, [], 0, none, none, none, none⟩⟩, fun _ _ => false⟩ 1
        (plan_filter ⟨fun _ => .actualLoc 0, fun _ => []⟩ 0 (.var .root)
          (.not (.and []))) ⟨[], []⟩
      = .ok (.stream []) := by
  have h1 := (c5_trivial_predicate_filter ⟨fun _ => .actualLoc 0, fun _ => []⟩ 0
    (.var .root) (.and [])).1 (by
      rw [plan_predicate, plan_junction, junction_go])
  have h2 := (c5_trivial_predicate_filter ⟨fun _ => .actualLoc 0, fun _ => []⟩ 0
    (.var .root) (.not (.and []))).2 (by
      rw [plan_predicate, plan_predicate, plan_junction, junction_go]
      rfl)
  exact ⟨h1.1, h2.1, h2.2 _ 1 ⟨[], []⟩⟩

/-- C6: the nodes-by-id plan evaluates its id plan to a number and looks it
up in the snapshot's node map, yielding a one-element stream when a node
with that id exists and the empty stream when none does; in particular a
filter of the `nodes` primitive whose predicate requires id N executes to
the empty stream when no node with id N exists, whichever shape the
residual predicate plans to. -/
theorem c6_nodes_by_id (cx : Context) (fuel : Nat) (p : Plan)
    (act : Activation) :
    (∀ N nd, runPlan cx fuel p act = .ok (.number N) →
      cx.dump.get_node N = some nd →
      runPlan cx fuel (.nodesById p) act = .ok (.stream [.ok (.node nd)])) ∧
    (∀ N, runPlan cx fuel p act = .ok (.number N) →
      cx.dump.get_node N = none →
      runPlan cx fuel (.nodesById p) act = .ok (.stream [])) ∧
    (∀ (a : StaticAnalysis) idl P e rest N capt,
      find_predicate_required_id P = some (e, rest) →
      runPlan cx fuel (plan_expr a e) act = .ok (.number N) →
      cx.dump.get_node N = none →
      act.get_captured (a.capture_lists idl) = .ok capt →
      runPlan cx fuel (plan_filter a idl (.var .nodes) P) act
          = .ok (.stream [])) := by
  have hbyid : ∀ q N, runPlan cx fuel q act = .ok (.number N) →
      cx.dump.get_node N = none →
      runPlan cx fuel (.nodesById q) act = .ok (.stream []) := by
    intro q N hrun hget
    rw [runPlan]
    simp only [hrun, hget]
  refine ⟨?_, fun N hrun hget => hbyid p N hrun hget, ?_⟩
  · intro N nd hrun hget
    rw [runPlan]
    simp only [hrun, hget]
  · intro a idl P e rest N capt hf hrun hget hcapt
    rw [plan_filter, hf]
    show runPlan cx fuel
        (finish_filter (.nodesById (plan_expr a e)) (a.capture_lists idl)
          (plan_junction a true rest)) act
      = .ok (.stream [])
    cases hj : plan_junction a true rest with
    | trivial k =>
      cases k with
      | true =>
        rw [finish_filter]
        exact hbyid _ N hrun hget
      | false =>
        rw [finish_filter, runPlan]
        rw [runList]
    | plan q =>
      rw [finish_filter, runPlan]
      rw [hbyid _ N hrun hget]
      simp only [hcapt]
      rw [filterStream]

/-- C6 witness: filtering `nodes` by `id = 5` over an empty snapshot yields
the empty stream, and the bare nodes-by-id plan agrees. -/
theorem c6_nodes_by_id_witness :
    runPlan ⟨⟨[], ⟨0, none, [], 0, none, none, none, none⟩⟩, fun _ _ => false⟩ 1
        (plan_filter ⟨fun _ => .actualLoc 0, fun _ => []⟩ 0 (.var .nodes)
          (.field "id" (.expr (.number 5)))) ⟨[], []⟩
      = .ok (.stream []) := by
  refine (c6_nodes_by_id
    ⟨⟨[], ⟨0, none, [], 0, none, none, none, none⟩⟩, fun _ _ => false⟩ 1
    (.constNum 5) ⟨[], []⟩).2.2
    ⟨fun _ => .actualLoc 0, fun _ => []⟩ 0 (.field "id" (.expr (.number 5)))
    (.number 5) [] 5 [] ?_ ?_ rfl rfl
  · rw [find_predicate_required_id]
    simp
  · rw [plan_expr, runPlan]

/-- Interning appends exactly the given-carrying payload. -/
theorem intern_eq (table : List String) (d : OrRef) :
    intern table d = table ++ givenOf d := by
  cases d <;> simp [intern, givenOf]

/-- The edge-name interning loop appends the given edge names in order. -/
theorem internEdgeNames_eq :
    ∀ (edges : List ProtoEdge) (table : List String),
      internEdgeNames table edges
        = table ++ edges.flatMap (fun e => givenOf e.EdgeNameOrRef) := by
  intro edges
  induction edges with
  | nil => intro table; simp [internEdgeNames]
  | cons e rest ih =>
    intro table
    show internEdgeNames (intern table e.EdgeNameOrRef) rest = _
    rw [ih, intern_eq]
    simp

/-- Scanning a stack-frame chain appends its given two-byte strings in walk
order and leaves the one-byte table unchanged. -/
theorem scan_frame_strings :
    ∀ (f : Option ProtoStackFrame) (d : ScanDump),
      (scan_frame d f).one_byte_strings = d.one_byte_strings ∧
      (scan_frame d f).two_byte_strings
        = d.two_byte_strings ++ frameTwoByte f
  | none, d => by
    constructor
    · rw [scan_frame] <;> simp
    · rw [scan_frame] <;> simp [frameTwoByte]
  | some (.ref i), d => by
    constructor
    · rw [scan_frame] <;> simp
    · rw [scan_frame] <;> simp [frameTwoByte]
  | some (.data id src fdn parent), d => by
    have ih := scan_frame_strings parent
    cases id with
    | some i =>
      rw [scan_frame]
      constructor
      · rw [(ih _).1]
      · rw [(ih _).2]
        simp [frameTwoByte, intern_eq]
    | none =>
      rw [scan_frame]
      constructor
      · rw [(ih _).1]
      · rw [(ih _).2]
        simp [frameTwoByte, intern_eq]

/-- Scanning one node message appends its given strings, per width, in
field-encounter order. -/
theorem scan_node_strings (d : ScanDump) (node : ProtoNode) :
    (scan_node d node).one_byte_strings
        = d.one_byte_strings ++ nodeOneByte node ∧
    (scan_node d node).two_byte_strings
        = d.two_byte_strings ++ nodeTwoByte node := by
  have hf := scan_frame_strings node.allocationStack
  cases hid : node.id with
  | some i =>
    rw [scan_node, hid]
    simp [intern_eq, internEdgeNames_eq, hf, nodeOneByte, nodeTwoByte]
  | none =>
    rw [scan_node, hid]
    simp [intern_eq, internEdgeNames_eq, hf, nodeOneByte, nodeTwoByte]

/-- The scan loop accumulates per-message contributions in stream order. -/
theorem scanAll_strings_from :
    ∀ (msgs : List ProtoNode) (d : ScanDump),
      (msgs.foldl scan_node d).one_byte_strings
          = d.one_byte_strings ++ msgs.flatMap nodeOneByte ∧
      (msgs.foldl scan_node d).two_byte_strings
          = d.two_byte_strings ++ msgs.flatMap nodeTwoByte := by
  intro msgs
  induction msgs with
  | nil => intro d; simp
  | cons m rest ih =>
    intro d
    simp only [List.foldl_cons, List.flatMap_cons]
    have hm := scan_node_strings d m
    constructor
    · rw [(ih _).1, hm.1]
      simp
    · rw [(ih _).2, hm.2]
      simp

/-- A successful `get_string` resolves its field as the claim demands. -/
theorem get_string_resolves (table : List String) (d : OrRef)
    (att : Option String) (h : get_string table d = .ok att) :
    resolvesTo table d att := by
  cases d with
  | absent =>
    rw [get_string] at h
    simp at h
    exact Or.inl ⟨rfl, h.symm⟩
  | given s =>
    rw [get_string] at h
    simp at h
    exact Or.inr (Or.inl ⟨s, rfl, h.symm⟩)
  | backref i =>
    rw [get_string] at h
    cases hg : table.get? i with
    | none => rw [hg] at h; simp at h
    | some s =>
      rw [hg] at h
      simp at h
      exact Or.inr (Or.inr ⟨i, s, rfl, hg, h.symm⟩)

/-- C3: over any decodable message stream, the scan appends each given
deduplicable string to the table of its width in field-encounter order
(type name, edge names, the allocation-stack chain, object class name,
script filename, descriptive type name per node, nodes in stream order);
and materialization resolves each deduplicable node field as absent, as its
own bytes, or as the i-th string of the corresponding table. -/
theorem c3_intern_and_resolve :
    (∀ msgs : List ProtoNode,
      (scanAll msgs).one_byte_strings = msgs.flatMap nodeOneByte ∧
      (scanAll msgs).two_byte_strings = msgs.flatMap nodeTwoByte) ∧
    (∀ (d : ScanDump) (proto : ProtoNode) (node : Node),
      Node.from_protobuf d proto = .ok node →
      resolvesTo d.two_byte_strings proto.TypeNameOrRef node.typeName ∧
      resolvesTo d.one_byte_strings proto.JSObjectClassNameOrRef
        node.JSObjectClassName ∧
      resolvesTo d.one_byte_strings proto.ScriptFilenameOrRef
        node.scriptFilename ∧
      resolvesTo d.two_byte_strings proto.descriptiveTypeNameOrRef
        node.descriptiveTypeName) := by
  constructor
  · intro msgs
    have h := scanAll_strings_from msgs ⟨[], [], [], []⟩
    exact ⟨by simpa [scanAll] using h.1, by simpa [scanAll] using h.2⟩
  · intro d proto node h
    cases hid : proto.id with
    | none => rw [Node.from_protobuf, hid] at h; simp at h
    | some i =>
      rw [Node.from_protobuf, hid] at h
      simp only [bind, Except.bind] at h
      cases h0 : proto.edges.mapM (Edge.from_protobuf d) with
      | error e => rw [h0] at h; simp at h
      | ok edges =>
        rw [h0] at h
        cases h1 : get_string d.two_byte_strings proto.TypeNameOrRef with
        | error e => rw [h1] at h; simp at h
        | ok tn =>
          rw [h1] at h
          cases h2 : get_string d.one_byte_strings
              proto.JSObjectClassNameOrRef with
          | error e => rw [h2] at h; simp at h
          | ok jcn =>
            rw [h2] at h
            cases h3 : get_string d.one_byte_strings
                proto.ScriptFilenameOrRef with
            | error e => rw [h3] at h; simp at h
            | ok sf =>
              rw [h3] at h
              cases h4 : get_string d.two_byte_strings
                  proto.descriptiveTypeNameOrRef with
              | error e => rw [h4] at h; simp at h
              | ok dtn =>
                rw [h4] at h
                simp only [pure, Except.pure, Except.ok.injEq] at h
                subst h
                exact ⟨get_string_resolves _ _ _ h1,
                       get_string_resolves _ _ _ h2,
                       get_string_resolves _ _ _ h3,
                       get_string_resolves _ _ _ h4⟩

/-- C3 witness: a two-message stream interning one string per width, and a
node resolving a back-reference to the first two-byte string. -/
theorem c3_intern_and_resolve_witness :
    (scanAll
        [⟨some 1, none, [], none, 0, .given "T", .given "c", .absent, .absent⟩,
         ⟨some 2, none, [], none, 0, .backref 0, .absent, .absent, .absent⟩]
      ).two_byte_strings = ["T"] ∧
    resolvesTo ["T"] (.backref 0) (some "T") := by
  constructor
  · exact ((c3_intern_and_resolve.1 _).2).trans (by
      simp [nodeTwoByte, givenOf, frameTwoByte])
  · exact (c3_intern_and_resolve.2
      ⟨[], ["T"], [], []⟩
      ⟨some 2, none, [], none, 0, .backref 0, .absent, .absent, .absent⟩
      ⟨2, none, [], 0, some "T", none, none, none⟩
      (by rw [Node.from_protobuf]; rfl)).1

/-- One `next` call on a shared-or-private handle: the result is the pure
step of the handle's iterator state; afterwards the handle owns a cell
holding the advanced state, the other handle's cell still holds its old
state, and the two handles are distinct. -/
theorem cowNext_spec {V E σ : Type} (step : σ → Except E (Option V) × σ)
    (store : RcStore σ) (h o : Nat) (ch co : RcCell σ)
    (hh : store.get? h = some ch) (ho : store.get? o = some co)
    (hsh : h = o → 2 ≤ ch.strong) :
    ∃ store2 h2 c1 c2,
      cowNext step store h = some (store2, h2, (step ch.state).1) ∧
      store2.get? h2 = some c1 ∧ c1.state = (step ch.state).2 ∧
      store2.get? o = some c2 ∧ c2.state = co.state ∧ h2 ≠ o := by
  have hhlt : h < store.length := List.get?_eq_some.mp hh |>.1
  have holt : o < store.length := List.get?_eq_some.mp ho |>.1
  rw [cowNext, hh]
  dsimp only []
  by_cases hstrong : 1 < ch.strong
  · rw [if_pos hstrong]
    cases hstep : step ch.state with
    | mk res s2 =>
      dsimp only []
      refine ⟨((store.set h (⟨ch.state, ch.strong - 1⟩ : RcCell σ))
            ++ [(⟨ch.state, 1⟩ : RcCell σ)]).set
            (store.set h (⟨ch.state, ch.strong - 1⟩ : RcCell σ)).length
            (⟨s2, 1⟩ : RcCell σ),
          (store.set h (⟨ch.state, ch.strong - 1⟩ : RcCell σ)).length,
          (⟨s2, 1⟩ : RcCell σ), ?_⟩
      by_cases hoh : o = h
      · subst hoh
        have hcoch : co = ch := by
          rw [hh] at ho
          exact (Option.some.inj ho).symm
        refine ⟨⟨ch.state, ch.strong - 1⟩, rfl, ?_, rfl, ?_,
          by rw [hcoch], ?_⟩
        · exact List.get?_set_eq_of_lt _ (by simp)
        · rw [List.get?_set_ne _ _ (by simp; omega)]
          rw [List.get?_append (by simpa using hhlt)]
          exact List.get?_set_eq_of_lt _ hhlt
        · simp
          omega
      · refine ⟨co, rfl, ?_, rfl, ?_, rfl, ?_⟩
        · exact List.get?_set_eq_of_lt _ (by simp)
        · rw [List.get?_set_ne _ _ (by simp; omega)]
          rw [List.get?_append (by simpa using holt)]
          rw [List.get?_set_ne _ _ (fun hc => hoh hc.symm)]
          exact ho
        · simp
          omega
  · rw [if_neg hstrong]
    have hne : h ≠ o := by
      intro hcontra
      have := hsh hcontra
      omega
    cases hstep : step ch.state with
    | mk res s2 =>
      dsimp only []
      refine ⟨store.set h ⟨s2, ch.strong⟩, h, ⟨s2, ch.strong⟩, co,
        rfl, ?_, rfl, ?_, rfl, hne⟩
      · exact List.get?_set_eq_of_lt _ hhlt
      · rw [List.get?_set_ne _ _ hne]
        exact ho

/-- Interleaved consumption of two handles delivers to each handle exactly
the pure iteration of the state its cell held at the start, regardless of
the interleaving. -/
theorem runChoices_pure {V E σ : Type} (step : σ → Except E (Option V) × σ) :
    ∀ (choices : List Bool) (w : CowWorld σ) (cA cB : RcCell σ),
      w.store.get? w.hA = some cA →
      w.store.get? w.hB = some cB →
      (w.hA = w.hB → 2 ≤ cA.strong) →
      runChoices step w choices
        = some (pureNexts step cA.state (choices.count true),
                pureNexts step cB.state (choices.count false)) := by
  intro choices
  induction choices with
  | nil => intro w cA cB _ _ _; simp [runChoices, pureNexts]
  | cons c rest ih =>
    intro w cA cB hA hB hsh
    cases c with
    | true =>
      obtain ⟨store2, h2, c1, c2, hnext, hg1, hs1, hg2, hs2, hne⟩ :=
        cowNext_spec step w.store w.hA w.hB cA cB hA hB hsh
      cases hstep : step cA.state with
      | mk r s2 =>
        rw [hstep] at hnext hs1
        dsimp only [] at hnext hs1
        have hws : worldStep step w true = some (⟨store2, h2, w.hB⟩, r) := by
          rw [worldStep]
          simp [hnext]
        rw [runChoices, hws]
        dsimp only []
        have hrest := ih ⟨store2, h2, w.hB⟩ c1 c2 hg1 hg2
          (fun hc => absurd hc hne)
        rw [hrest]
        dsimp only []
        rw [hs1, hs2]
        simp [pureNexts, List.count_cons, hstep]
    | false =>
      have hshB : w.hB = w.hA → 2 ≤ cB.strong := by
        intro hc
        have h2le := hsh hc.symm
        have hcc : cA = cB := by
          rw [hc] at hB
          rw [hA] at hB
          exact Option.some.inj hB
        rw [← hcc]
        exact h2le
      obtain ⟨store2, h2, c1, c2, hnext, hg1, hs1, hg2, hs2, hne⟩ :=
        cowNext_spec step w.store w.hB w.hA cB cA hB hA hshB
      cases hstep : step cB.state with
      | mk r s2 =>
        rw [hstep] at hnext hs1
        dsimp only [] at hnext hs1
        have hws : worldStep step w false = some (⟨store2, w.hA, h2⟩, r) := by
          rw [worldStep]
          simp [hnext]
        rw [runChoices, hws]
        dsimp only []
        have hrest := ih ⟨store2, w.hA, h2⟩ c2 c1 hg2 hg1
          (fun hc => absurd hc.symm hne)
        rw [hrest]
        dsimp only []
        rw [hs1, hs2]
        simp [pureNexts, List.count_cons, hstep]

/-- C2: cloning a stream at any point of its iteration yields a stream
positioned where the original was, and thereafter the two are fully
independent: over every interleaving of `next` calls, each of the two
handles observes exactly the sequence of results a private iterator started
from the shared position would produce, because the shared mutable
iteration state is privately copied before any advancing step. -/
theorem c2_stream_clone_independence {V E σ : Type}
    (step : σ → Except E (Option V) × σ) (s0 : σ) (choices : List Bool) :
    runChoices step ⟨cowClone [⟨s0, 1⟩] 0, 0, 0⟩ choices
      = some (pureNexts step s0 (choices.count true),
              pureNexts step s0 (choices.count false)) := by
  have hclone : cowClone ([⟨s0, 1⟩] : RcStore σ) 0 = [⟨s0, 2⟩] := rfl
  rw [hclone]
  exact runChoices_pure step choices ⟨[⟨s0, 2⟩], 0, 0⟩ ⟨s0, 2⟩ ⟨s0, 2⟩
    rfl rfl (fun _ => le_refl 2)

/-! ## Vocabulary and invariants for the breadth-first traversal (C7) -/

/-- The key list of a visited map. -/
def keysOf (v : Visited) : List NodeId := v.map Prod.fst

/-- The path recorded for a node by a visited map (`path_from_start`
depends only on the visited map, not on the front). -/
def pathOf (v : Visited) (id : NodeId) : Option (List Step) :=
  BreadthFirst.path_from_start ⟨v, []⟩ id

/-- A list of steps is a path of the dump leading from some start node to
`id`: the specification vocabulary for `paths` correctness. -/
inductive PathTo (dump : CoreDump) (starts : List NodeId) :
    List Step → NodeId → Prop where
  | nil {s : NodeId} : s ∈ starts → PathTo dump starts [] s
  | snoc {p : List Step} {origin id : NodeId} {node : Node} {edge : Edge} :
      PathTo dump starts p origin →
      dump.get_node origin = some node →
      edge ∈ node.edges →
      edge.referent = some id →
      PathTo dump starts (p ++ [⟨origin, edge⟩]) id

/-- A node is reachable when some path of the dump leads to it from the
start set. -/
def Reachable (dump : CoreDump) (starts : List NodeId) (id : NodeId) : Prop :=
  ∃ p, PathTo dump starts p id

/-- The alternating edge/node shape of a wrapped path after its leading
source node. -/
inductive AltTail : List Value → Prop where
  | nil : AltTail []
  | cons {e : Edge} {n : Node} {rest : List Value} :
      AltTail rest → AltTail (Value.edge e :: Value.node n :: rest)

/-- The number of dump node-table entries whose id is not yet visited; the
termination measure for draining the traversal. -/
def unvis (dump : CoreDump) (v : Visited) : Nat :=
  (dump.nodes.map Prod.fst).countP (fun id => decide (id ∉ keysOf v))

/-- The node `id` is visited with a recorded path of length `d`. -/
def DepthIs (v : Visited) (id : NodeId) (d : Nat) : Prop :=
  ∃ p, pathOf v id = some p ∧ p.length = d

/-- The breadth-first queue shape: the recorded depths of the front are,
in order, `k` copies of `dlo` followed by `m` copies of `dlo + 1`. -/
def QueueShape (v : Visited) (front : List NodeId) (dlo k m : Nat) : Prop :=
  List.Forall₂ (DepthIs v) front
    (List.replicate k dlo ++ List.replicate m (dlo + 1))

theorem keysOf_append (v w : Visited) : keysOf (v ++ w) = keysOf v ++ keysOf w := by
  simp [keysOf]

theorem mem_keysOf {v : Visited} {id : NodeId} :
    id ∈ keysOf v ↔ ∃ e, (id, e) ∈ v := by
  simp only [keysOf, List.mem_map]
  constructor
  · rintro ⟨⟨a, e⟩, hq, rfl⟩
    exact ⟨e, hq⟩
  · rintro ⟨e, h⟩
    exact ⟨(id, e), h, rfl⟩

theorem visitedLookup_isSome {v : Visited} {id : NodeId} :
    (visitedLookup v id).isSome = true ↔ id ∈ keysOf v := by
  rw [mem_keysOf]
  simp only [visitedLookup, Option.isSome_map']
  rw [List.find?_isSome]
  constructor
  · rintro ⟨⟨a, e⟩, hq, hbeq⟩
    have ha : a = id := by simpa using hbeq
    subst ha
    exact ⟨e, hq⟩
  · rintro ⟨e, h⟩
    exact ⟨(id, e), h, by simp⟩

theorem visitedLookup_mem {v : Visited} {id : NodeId} {e : Option Step}
    (h : visitedLookup v id = some e) : (id, e) ∈ v := by
  simp only [visitedLookup, Option.map_eq_some'] at h
  obtain ⟨q, hfind, h2⟩ := h
  have hmem := List.mem_of_find?_eq_some hfind
  have hbeq := List.find?_some hfind
  have h1 : q.1 = id := by simpa using hbeq
  have : q = (id, e) := by
    cases q
    simp_all
  rw [← this]
  exact hmem

theorem visitedLookup_append_left {v w : Visited} {id : NodeId} {e : Option Step}
    (h : visitedLookup v id = some e) : visitedLookup (v ++ w) id = some e := by
  simp only [visitedLookup, Option.map_eq_some'] at h ⊢
  obtain ⟨q, hfind, h2⟩ := h
  exact ⟨q, by rw [List.find?_append, hfind]; rfl, h2⟩

theorem visitedLookup_append_right {v w : Visited} {id : NodeId}
    (h : id ∉ keysOf v) : visitedLookup (v ++ w) id = visitedLookup w id := by
  have hfind : v.find? (fun p => p.1 == id) = none := by
    rw [List.find?_eq_none]
    intro q hq hbeq
    have h1 : q.1 = id := by simpa using hbeq
    exact h (h1 ▸ (List.mem_map.mpr ⟨q, hq, rfl⟩))
  simp only [visitedLookup, List.find?_append, hfind, Option.none_or]

theorem visitedLookup_of_mem_nodup {v : Visited} {q : NodeId × Option Step}
    (hq : q ∈ v) (hnd : (keysOf v).Nodup) : visitedLookup v q.1 = some q.2 := by
  induction v with
  | nil => cases hq
  | cons x xs ih =>
    have hnd' : x.1 ∉ keysOf xs ∧ (keysOf xs).Nodup := by
      rw [keysOf] at hnd
      rw [List.map_cons, List.nodup_cons] at hnd
      exact hnd
    rcases List.mem_cons.mp hq with rfl | hq2
    · simp [visitedLookup, List.find?]
    · have hx : (x.1 == q.1) = false := by
        rw [beq_eq_false_iff_ne]
        intro hc
        exact hnd'.1 (hc ▸ List.mem_map.mpr ⟨q, hq2, rfl⟩)
      have ih2 := ih hq2 hnd'.2
      rw [visitedLookup] at ih2 ⊢
      rw [List.find?_cons, hx]
      exact ih2

theorem hmInsert_fresh {v : Visited} {id : NodeId} {val : Option Step}
    (h : id ∉ keysOf v) : hmInsert v id val = v ++ [(id, val)] := by
  have hfind : v.find? (fun p => p.1 == id) = none := by
    rw [List.find?_eq_none]
    intro q hq hbeq
    have h1 : q.1 = id := by simpa using hbeq
    exact h (h1 ▸ (List.mem_map.mpr ⟨q, hq, rfl⟩))
  simp [hmInsert, hfind]

theorem pathWalk_mono {v : Visited} :
    ∀ {n : Nat} {e : Option Step} {acc r : List Step},
      pathWalk v n e acc = some r → ∀ {m : Nat}, n ≤ m → pathWalk v m e acc = some r := by
  intro n
  induction n with
  | zero => intro e acc r h; simp [pathWalk] at h
  | succ n ih =>
    intro e acc r h m hm
    obtain ⟨m', rfl⟩ : ∃ m', m = m' + 1 := ⟨m - 1, by omega⟩
    cases e with
    | none => simpa [pathWalk] using h
    | some st =>
      rw [pathWalk] at h ⊢
      cases hl : visitedLookup v st.origin with
      | none => rw [hl] at h; simp at h
      | some entry =>
        rw [hl] at h
        exact ih h (by omega)

theorem pathWalk_acc {v : Visited} :
    ∀ {n : Nat} {e : Option Step} (acc : List Step),
      pathWalk v n e acc = (pathWalk v n e []).map (fun core => core ++ acc) := by
  intro n
  induction n with
  | zero => intro e acc; simp [pathWalk]
  | succ n ih =>
    intro e acc
    cases e with
    | none => simp [pathWalk]
    | some st =>
      cases hl : visitedLookup v st.origin with
      | none => simp [pathWalk, hl]
      | some entry =>
        simp only [pathWalk, hl]
        rw [ih (st :: acc), ih [st], Option.map_map]
        congr 1
        funext core
        simp

theorem pathWalk_append {v w : Visited} :
    ∀ {n : Nat} {e : Option Step} {acc r : List Step},
      pathWalk v n e acc = some r → pathWalk (v ++ w) n e acc = some r := by
  intro n
  induction n with
  | zero => intro e acc r h; simp [pathWalk] at h
  | succ n ih =>
    intro e acc r h
    cases e with
    | none => simpa [pathWalk] using h
    | some st =>
      rw [pathWalk] at h ⊢
      cases hl : visitedLookup v st.origin with
      | none => rw [hl] at h; simp at h
      | some entry =>
        rw [hl] at h
        rw [visitedLookup_append_left hl]
        exact ih h

theorem pathOf_append {v w : Visited} {id : NodeId} {p : List Step}
    (h : pathOf v id = some p) : pathOf (v ++ w) id = some p := by
  rw [pathOf, BreadthFirst.path_from_start] at h ⊢
  cases hl : visitedLookup v id with
  | none => rw [hl] at h; simp at h
  | some entry =>
    rw [hl] at h
    rw [visitedLookup_append_left hl]
    exact pathWalk_mono (pathWalk_append h) (by simp)

theorem DepthIs_append {v w : Visited} {id : NodeId} {d : Nat}
    (h : DepthIs v id d) : DepthIs (v ++ w) id d := by
  obtain ⟨p, hp, hlen⟩ := h
  exact ⟨p, pathOf_append hp, hlen⟩

/-- The invariant the breadth-first traversal maintains over its visited
map `v` and front queue `front`. -/
structure BfsInv (dump : CoreDump) (starts : List NodeId) (v : Visited)
    (front : List NodeId) : Prop where
  keys_nodup : (keysOf v).Nodup
  front_nodup : front.Nodup
  front_sub : ∀ id ∈ front, id ∈ keysOf v
  keys_exist : ∀ id ∈ keysOf v, dump.has_node id = true
  entry_none : ∀ q ∈ v, q.2 = none → q.1 ∈ starts
  start_none : ∀ s ∈ starts, visitedLookup v s = some none
  entry_step : ∀ q ∈ v, ∀ st : Step, q.2 = some st →
    (∃ node, dump.get_node st.origin = some node ∧ st.edge ∈ node.edges ∧
      st.edge.referent = some q.1) ∧
    st.origin ∈ keysOf v ∧
    (keysOf v).indexOf st.origin < (keysOf v).indexOf q.1
  processed : ∀ id ∈ keysOf v, id ∉ front →
    ∀ node, dump.get_node id = some node → ∀ e ∈ node.edges,
      ∀ r, e.referent = some r → r ∈ keysOf v

/-- Under the invariant, the predecessor walk from any visited node
terminates within its key index and yields a path of the dump from a start
node; the path is empty exactly when the entry is a start marker. -/
theorem walk_total {dump : CoreDump} {starts : List NodeId} {v : Visited}
    {front : List NodeId} (inv : BfsInv dump starts v front) :
    ∀ (fuel : Nat) (id : NodeId) (entry : Option Step),
      visitedLookup v id = some entry → (keysOf v).indexOf id < fuel →
      ∃ p, pathWalk v fuel entry [] = some p ∧ PathTo dump starts p id ∧
        (p = [] ↔ entry = none) := by
  intro fuel
  induction fuel with
  | zero => intro id entry _ hlt; omega
  | succ fuel ih =>
    intro id entry hlook hlt
    cases entry with
    | none =>
      refine ⟨[], by rw [pathWalk]; omega, ?_, by simp⟩
      exact PathTo.nil (inv.entry_none _ (visitedLookup_mem hlook) rfl)
    | some st =>
      obtain ⟨⟨node, hnode, hedge, href⟩, horig, hidx⟩ :=
        inv.entry_step _ (visitedLookup_mem hlook) st rfl
      have hidx2 : (keysOf v).indexOf st.origin < (keysOf v).indexOf id := by
        simpa using hidx
      have hsome : (visitedLookup v st.origin).isSome = true :=
        visitedLookup_isSome.mpr horig
      cases hl2 : visitedLookup v st.origin with
      | none => rw [hl2] at hsome; simp at hsome
      | some entry2 =>
        have hidlt : (keysOf v).indexOf st.origin < fuel := by omega
        obtain ⟨p0, hw, hp0, _⟩ := ih st.origin entry2 hl2 hidlt
        refine ⟨p0 ++ [st], ?_, ?_, by simp⟩
        · simp only [pathWalk, hl2]
          rw [pathWalk_acc [st], hw]
          rfl
        · exact PathTo.snoc hp0 hnode hedge href

/-- Under the invariant, every visited node has a recorded path from a
start node, empty exactly for the start nodes. -/
theorem pathOf_total {dump : CoreDump} {starts : List NodeId} {v : Visited}
    {front : List NodeId} (inv : BfsInv dump starts v front) {id : NodeId}
    (hid : id ∈ keysOf v) :
    ∃ p, pathOf v id = some p ∧ PathTo dump starts p id ∧
      (p = [] ↔ id ∈ starts) := by
  have hsome : (visitedLookup v id).isSome = true := visitedLookup_isSome.mpr hid
  cases hlook : visitedLookup v id with
  | none => rw [hlook] at hsome; simp at hsome
  | some entry =>
    have hlt : (keysOf v).indexOf id < v.length := by
      have h1 : (keysOf v).indexOf id < (keysOf v).length :=
        List.indexOf_lt_length.mpr hid
      simpa [keysOf] using h1
    obtain ⟨p, hw, hp, hiff⟩ := walk_total inv v.length id entry hlook hlt
    refine ⟨p, ?_, hp, ?_⟩
    · rw [pathOf, BreadthFirst.path_from_start, hlook]
      exact hw
    · rw [hiff]
      constructor
      · rintro rfl
        exact inv.entry_none _ (visitedLookup_mem hlook) rfl
      · intro hs
        have := inv.start_none id hs
        rw [hlook] at this
        exact Option.some.inj this

/-- The scan loop of `next` appends the freshly reached referents, in
discovery order, both to the visited map and to the front; it reaches every
referent of the scanned edges, records each step correctly, and keeps the
keys duplicate-free. -/
theorem scanEdges_spec (id : NodeId) :
    ∀ (edges : List Edge) (v : Visited) (f : List NodeId),
      (keysOf v).Nodup →
      ∃ Δ : Visited,
        scanEdges id edges (v, f) = (v ++ Δ, f ++ keysOf Δ) ∧
        (∀ q ∈ Δ, q.1 ∉ keysOf v ∧
          ∃ e ∈ edges, e.referent = some q.1 ∧ q.2 = some ⟨id, e⟩) ∧
        (keysOf (v ++ Δ)).Nodup ∧
        (∀ e ∈ edges, ∀ r, e.referent = some r → r ∈ keysOf (v ++ Δ)) := by
  intro edges
  induction edges with
  | nil =>
    intro v f hnd
    refine ⟨[], by simp [scanEdges, keysOf], by simp, by simpa [keysOf], by simp⟩
  | cons e rest ih =>
    intro v f hnd
    cases he : e.referent with
    | none =>
      obtain ⟨Δ, heq, hmem, hnd2, hcompl⟩ := ih v f hnd
      refine ⟨Δ, ?_, ?_, hnd2, ?_⟩
      · simp only [scanEdges, he]
        exact heq
      · intro q hq
        obtain ⟨h1, e2, he2, h3⟩ := hmem q hq
        exact ⟨h1, e2, List.mem_cons_of_mem _ he2, h3⟩
      · intro e2 he2 r hr
        rcases List.mem_cons.mp he2 with rfl | he3
        · rw [he] at hr; cases hr
        · exact hcompl e2 he3 r hr
    | some r =>
      cases hl : visitedLookup v r with
      | some entry =>
        obtain ⟨Δ, heq, hmem, hnd2, hcompl⟩ := ih v f hnd
        have hrin : r ∈ keysOf v :=
          visitedLookup_isSome.mp (by rw [hl]; rfl)
        refine ⟨Δ, ?_, ?_, hnd2, ?_⟩
        · simp only [scanEdges, he, hl]
          exact heq
        · intro q hq
          obtain ⟨h1, e2, he2, h3⟩ := hmem q hq
          exact ⟨h1, e2, List.mem_cons_of_mem _ he2, h3⟩
        · intro e2 he2 r2 hr2
          rcases List.mem_cons.mp he2 with rfl | he3
          · rw [he] at hr2
            rw [← Option.some.inj hr2]
            rw [keysOf_append]
            exact List.mem_append_left _ hrin
          · exact hcompl e2 he3 r2 hr2
      | none =>
        have hfresh : r ∉ keysOf v := by
          intro hc
          have := visitedLookup_isSome.mpr hc
          rw [hl] at this
          simp at this
        have hnd' : (keysOf (v ++ [(r, some (⟨id, e⟩ : Step))])).Nodup := by
          rw [keysOf_append, List.nodup_append]
          refine ⟨hnd, by simp [keysOf], ?_⟩
          intro a ha hb
          have hab : a = r := by simpa [keysOf] using hb
          rw [hab] at ha
          exact hfresh ha
        obtain ⟨Δ, heq, hmem, hnd2, hcompl⟩ :=
          ih (v ++ [(r, some ⟨id, e⟩)]) (f ++ [r]) hnd'
        refine ⟨(r, some ⟨id, e⟩) :: Δ, ?_, ?_, ?_, ?_⟩
        · simp only [scanEdges, he, hl]
          rw [hmInsert_fresh hfresh, heq]
          simp [keysOf]
        · intro q hq
          rcases List.mem_cons.mp hq with rfl | hq2
          · exact ⟨hfresh, e, List.mem_cons_self _ _, he, rfl⟩
          · obtain ⟨h1, e2, he2, h3⟩ := hmem q hq2
            refine ⟨?_, e2, List.mem_cons_of_mem _ he2, h3⟩
            intro hc
            exact h1 (by rw [keysOf_append]; exact List.mem_append_left _ hc)
        · have : v ++ (r, some (⟨id, e⟩ : Step)) :: Δ
              = (v ++ [(r, some ⟨id, e⟩)]) ++ Δ := by simp
          rw [this]
          exact hnd2
        · intro e2 he2 r2 hr2
          have hsub : r2 ∈ keysOf ((v ++ [(r, some (⟨id, e⟩ : Step))]) ++ Δ) →
              r2 ∈ keysOf (v ++ (r, some (⟨id, e⟩ : Step)) :: Δ) := by
            intro hx
            have : (v ++ [(r, some (⟨id, e⟩ : Step))]) ++ Δ
                = v ++ (r, some (⟨id, e⟩ : Step)) :: Δ := by simp
            rw [← this]
            exact hx
          rcases List.mem_cons.mp he2 with rfl | he3
          · rw [he] at hr2
            obtain rfl := Option.some.inj hr2
            apply hsub
            rw [keysOf_append]
            apply List.mem_append_left
            rw [keysOf_append]
            apply List.mem_append_right
            simp [keysOf]
          · exact hsub (hcompl e2 he3 r2 hr2)

/-- Counting with a weaker predicate that misses a counted witness loses at
least one. -/
theorem countP_succ_le {α : Type} (p q : α → Bool) (l : List α)
    (himp : ∀ x, q x = true → p x = true) (a : α) (ha : a ∈ l)
    (hpa : p a = true) (hqa : q a = false) :
    l.countP q + 1 ≤ l.countP p := by
  induction l with
  | nil => cases ha
  | cons x xs ih =>
    rcases List.mem_cons.mp ha with rfl | ha2
    · have hmono : xs.countP q ≤ xs.countP p :=
        List.countP_mono_left (fun y _ hy => himp y hy)
      rw [List.countP_cons, List.countP_cons, hpa, hqa]
      have h1 : (if (false = true) then 1 else 0) = 0 := by simp
      have h2 : (if (true = true) then 1 else 0) = 1 := by simp
      rw [h1, h2]
      omega
    · rw [List.countP_cons, List.countP_cons]
      have hih := ih ha2
      by_cases hq : q x = true
      · rw [if_pos hq, if_pos (himp x hq)]
        omega
      · rw [if_neg hq]
        by_cases hp : p x = true
        · rw [if_pos hp]
          omega
        · rw [if_neg hp]
          omega

/-- Appending one fresh dump node to the visited map strictly decreases the
unvisited count. -/
theorem unvis_append_one (dump : CoreDump) {v : Visited} {r : NodeId}
    {st : Option Step} (hr : r ∈ dump.nodes.map Prod.fst)
    (hfresh : r ∉ keysOf v) :
    unvis dump (v ++ [(r, st)]) + 1 ≤ unvis dump v := by
  apply countP_succ_le _ _ _ ?_ r hr (by simpa using hfresh)
  · simp [keysOf_append, keysOf]
  · intro x hx
    simp only [decide_eq_true_eq] at hx ⊢
    intro hc
    exact hx (by rw [keysOf_append]; exact List.mem_append_left _ hc)

/-- Appending a block of fresh dump nodes decreases the unvisited count by
at least the block length. -/
theorem unvis_le (dump : CoreDump) :
    ∀ (Δ : Visited) (v : Visited),
      (∀ q ∈ Δ, q.1 ∈ dump.nodes.map Prod.fst) →
      (keysOf (v ++ Δ)).Nodup →
      (∀ q ∈ Δ, q.1 ∉ keysOf v) →
      unvis dump (v ++ Δ) + Δ.length ≤ unvis dump v := by
  intro Δ
  induction Δ with
  | nil => intro v _ _ _; simp
  | cons q Δ' ih =>
    intro v hdump hnd hfresh
    have hassoc : v ++ q :: Δ' = (v ++ [q]) ++ Δ' := by simp
    have hnd2 : (keysOf ((v ++ [q]) ++ Δ')).Nodup := by rw [← hassoc]; exact hnd
    have hfresh2 : ∀ q' ∈ Δ', q'.1 ∉ keysOf (v ++ [q]) := by
      intro q' hq'
      rw [keysOf_append]
      intro hc
      rcases List.mem_append.mp hc with hc1 | hc2
      · exact hfresh q' (List.mem_cons_of_mem _ hq') hc1
      · have hq1 : q'.1 = q.1 := by simpa [keysOf] using hc2
        have hmemd : q'.1 ∈ keysOf Δ' := List.mem_map.mpr ⟨q', hq', rfl⟩
        have hcons : (q.1 :: keysOf Δ').Nodup := by
          have h3 : keysOf (v ++ q :: Δ') = keysOf v ++ q.1 :: keysOf Δ' := by
            simp [keysOf]
          rw [h3] at hnd
          exact (List.nodup_append.mp hnd).2.1
        rw [hq1] at hmemd
        exact (List.nodup_cons.mp hcons).1 hmemd
    have h1 := @unvis_append_one dump v q.1 q.2
      (hdump q (List.mem_cons_self _ _)) (hfresh q (List.mem_cons_self _ _))
    have h2 := ih (v ++ [q]) (fun q' hq' => hdump q' (List.mem_cons_of_mem _ hq'))
      hnd2 hfresh2
    have hq : (q.1, q.2) = q := rfl
    rw [hassoc]
    rw [hq] at h1
    calc unvis dump ((v ++ [q]) ++ Δ') + (Δ'.length + 1)
        ≤ unvis dump (v ++ [q]) + 1 := by omega
      _ ≤ unvis dump v := h1

theorem get_node_mem {dump : CoreDump} {id : NodeId} {node : Node}
    (h : dump.get_node id = some node) : (id, node) ∈ dump.nodes := by
  simp only [CoreDump.get_node, Option.map_eq_some'] at h
  obtain ⟨q, hfind, h2⟩ := h
  have hmem := List.mem_of_find?_eq_some hfind
  have hbeq := List.find?_some hfind
  have h1 : q.1 = id := by simpa using hbeq
  have hq : q = (id, node) := by
    cases q
    simp_all
  rw [← hq]
  exact hmem

theorem has_node_get {dump : CoreDump} {id : NodeId}
    (h : dump.has_node id = true) : ∃ node, dump.get_node id = some node := by
  rw [CoreDump.has_node, Option.isSome_iff_exists] at h
  exact h

theorem has_node_mem_keys {dump : CoreDump} {id : NodeId}
    (h : dump.has_node id = true) : id ∈ dump.nodes.map Prod.fst := by
  obtain ⟨node, hn⟩ := has_node_get h
  exact List.mem_map.mpr ⟨(id, node), get_node_mem hn, rfl⟩

theorem forall2_append {α β : Type} {R : α → β → Prop} :
    ∀ {l1 l2 : List α} {r1 r2 : List β}, List.Forall₂ R l1 r1 →
      List.Forall₂ R l2 r2 → List.Forall₂ R (l1 ++ l2) (r1 ++ r2) := by
  intro l1 l2 r1 r2 h1 h2
  induction h1 with
  | nil => exact h2
  | cons hab _ ih => exact List.Forall₂.cons hab ih

theorem forall2_mem_left {α β : Type} {R : α → β → Prop} {l : List α}
    {r : List β} (h : List.Forall₂ R l r) {a : α} (ha : a ∈ l) :
    ∃ b ∈ r, R a b := by
  induction h with
  | nil => cases ha
  | cons hab _ ih =>
    rcases List.mem_cons.mp ha with rfl | ha2
    · exact ⟨_, List.mem_cons_self _ _, hab⟩
    · obtain ⟨b, hb, hr⟩ := ih ha2
      exact ⟨b, List.mem_cons_of_mem _ hb, hr⟩

theorem forall2_mem_right {α β : Type} {R : α → β → Prop} {l : List α}
    {r : List β} (h : List.Forall₂ R l r) {b : β} (hb : b ∈ r) :
    ∃ a ∈ l, R a b := by
  induction h with
  | nil => cases hb
  | cons hab _ ih =>
    rcases List.mem_cons.mp hb with rfl | hb2
    · exact ⟨_, List.mem_cons_self _ _, hab⟩
    · obtain ⟨a, ha, hr⟩ := ih hb2
      exact ⟨a, List.mem_cons_of_mem _ ha, hr⟩

theorem forall2_replicate {α β : Type} {R : α → β → Prop} {l : List α}
    {d : β} (h : ∀ a ∈ l, R a d) :
    List.Forall₂ R l (List.replicate l.length d) := by
  induction l with
  | nil => exact List.Forall₂.nil
  | cons a l ih =>
    rw [List.length_cons, List.replicate_succ]
    exact List.Forall₂.cons (h a (List.mem_cons_self _ _))
      (ih (fun a ha => h a (List.mem_cons_of_mem _ ha)))

/-- One `next` call on a nonempty front under the invariant: the head is
popped and its recorded path produced, the fresh referents of its edges are
appended to the visited map and the front, the invariant is maintained, and
each fresh node records a path one step longer than the produced one. -/
theorem next_spec {dump : CoreDump} {starts : List NodeId}
    (hclosed : ∀ q ∈ dump.nodes, ∀ e ∈ q.2.edges, ∀ r, e.referent = some r →
      dump.has_node r = true)
    {v : Visited} {a1 : NodeId} {rest : List NodeId}
    (inv : BfsInv dump starts v (a1 :: rest)) :
    ∃ (node : Node) (Δ : Visited) (p1 : List Step),
      dump.get_node a1 = some node ∧
      BreadthFirst.next dump ⟨v, a1 :: rest⟩
        = some (.ok (p1, ⟨v ++ Δ, rest ++ keysOf Δ⟩)) ∧
      pathOf v a1 = some p1 ∧
      PathTo dump starts p1 a1 ∧
      (p1 = [] ↔ a1 ∈ starts) ∧
      BfsInv dump starts (v ++ Δ) (rest ++ keysOf Δ) ∧
      (∀ q ∈ Δ, q.1 ∉ keysOf v ∧ q.1 ∈ dump.nodes.map Prod.fst) ∧
      (∀ q ∈ Δ, DepthIs (v ++ Δ) q.1 (p1.length + 1)) := by
  have ha1k : a1 ∈ keysOf v := inv.front_sub a1 (List.mem_cons_self _ _)
  obtain ⟨node, hnode⟩ := has_node_get (inv.keys_exist a1 ha1k)
  obtain ⟨Δ, hscan, hmem, hnd2, hcompl⟩ :=
    scanEdges_spec a1 node.edges v rest inv.keys_nodup
  obtain ⟨p1, hp1, hpt, hiff⟩ := pathOf_total inv ha1k
  have hp1app : pathOf (v ++ Δ) a1 = some p1 := pathOf_append hp1
  have hpfs : BreadthFirst.path_from_start ⟨v ++ Δ, rest ++ keysOf Δ⟩ a1
      = some p1 := hp1app
  have hnext : BreadthFirst.next dump ⟨v, a1 :: rest⟩
      = some (.ok (p1, ⟨v ++ Δ, rest ++ keysOf Δ⟩)) := by
    simp only [BreadthFirst.next, hnode, hscan, hpfs]
  have hdisj : ∀ x ∈ keysOf v, x ∉ keysOf Δ := by
    have h := hnd2
    rw [keysOf_append, List.nodup_append] at h
    exact h.2.2
  have hΔdump : ∀ q ∈ Δ, q.1 ∉ keysOf v ∧ q.1 ∈ dump.nodes.map Prod.fst := by
    intro q hq
    obtain ⟨hfq, e, hemem, href, _⟩ := hmem q hq
    exact ⟨hfq, has_node_mem_keys
      (hclosed (a1, node) (get_node_mem hnode) e hemem q.1 href)⟩
  refine ⟨node, Δ, p1, hnode, hnext, hp1, hpt, hiff, ?_, hΔdump, ?_⟩
  · constructor
    · exact hnd2
    · rw [List.nodup_append]
      refine ⟨(List.nodup_cons.mp inv.front_nodup).2, ?_, ?_⟩
      · have h := hnd2
        rw [keysOf_append, List.nodup_append] at h
        exact h.2.1
      · intro x hx
        exact hdisj x (inv.front_sub x (List.mem_cons_of_mem _ hx))
    · intro idx hidx
      rw [keysOf_append]
      rcases List.mem_append.mp hidx with h1 | h2
      · exact List.mem_append_left _ (inv.front_sub idx (List.mem_cons_of_mem _ h1))
      · exact List.mem_append_right _ h2
    · intro idx hidx
      rw [keysOf_append] at hidx
      rcases List.mem_append.mp hidx with h1 | h2
      · exact inv.keys_exist idx h1
      · obtain ⟨q, hq, rfl⟩ := List.mem_map.mp h2
        obtain ⟨_, e, hemem, href, _⟩ := hmem q hq
        exact hclosed (a1, node) (get_node_mem hnode) e hemem q.1 href
    · intro q hq h2
      rcases List.mem_append.mp hq with h1 | hqd
      · exact inv.entry_none q h1 h2
      · obtain ⟨_, e, _, _, hform⟩ := hmem q hqd
        rw [h2] at hform
        cases hform
    · intro s hs
      exact visitedLookup_append_left (inv.start_none s hs)
    · intro q hq st hst
      rcases List.mem_append.mp hq with hqv | hqd
      · obtain ⟨hfacts, horig, hidx⟩ := inv.entry_step q hqv st hst
        refine ⟨hfacts, ?_, ?_⟩
        · rw [keysOf_append]
          exact List.mem_append_left _ horig
        · have hq1 : q.1 ∈ keysOf v := List.mem_map.mpr ⟨q, hqv, rfl⟩
          rw [keysOf_append, List.indexOf_append_of_mem horig,
            List.indexOf_append_of_mem hq1]
          exact hidx
      · obtain ⟨hfreshq, e, hemem, href, hform⟩ := hmem q hqd
        rw [hst] at hform
        obtain rfl := Option.some.inj hform
        refine ⟨⟨node, hnode, hemem, href⟩, ?_, ?_⟩
        · rw [keysOf_append]
          exact List.mem_append_left _ ha1k
        · rw [keysOf_append, List.indexOf_append_of_mem ha1k,
            List.indexOf_append_of_not_mem hfreshq]
          have h1 : (keysOf v).indexOf a1 < (keysOf v).length :=
            List.indexOf_lt_length.mpr ha1k
          omega
    · intro idx hidxk hidxf nodex hnodex e he r hr
      by_cases hida : idx = a1
      · subst hida
        obtain rfl := Option.some.inj (hnode ▸ hnodex)
        exact hcompl e he r hr
      · rw [keysOf_append] at hidxk
        rcases List.mem_append.mp hidxk with h1 | h2
        · have hnf : idx ∉ a1 :: rest := by
            intro hc
            rcases List.mem_cons.mp hc with rfl | hc2
            · exact hida rfl
            · exact hidxf (List.mem_append_left _ hc2)
          have := inv.processed idx h1 hnf nodex hnodex e he r hr
          rw [keysOf_append]
          exact List.mem_append_left _ this
        · exact absurd (List.mem_append_right _ h2) hidxf
  · intro q hq
    obtain ⟨hfreshq, e, hemem, href, hform⟩ := hmem q hq
    have hlookq : visitedLookup (v ++ Δ) q.1 = some q.2 :=
      visitedLookup_of_mem_nodup (List.mem_append_right _ hq) hnd2
    have hp1c := hp1
    rw [pathOf, BreadthFirst.path_from_start] at hp1c
    rcases hlA : visitedLookup v a1 with _ | entryA
    · rw [hlA] at hp1c
      simp at hp1c
    · rw [hlA] at hp1c
      have hlA2 : visitedLookup (v ++ Δ) a1 = some entryA :=
        visitedLookup_append_left hlA
      obtain ⟨L, hL⟩ : ∃ L, (v ++ Δ).length = L + 1 := by
        refine ⟨(v ++ Δ).length - 1, ?_⟩
        have hd : Δ.length ≥ 1 := List.length_pos.mpr (List.ne_nil_of_mem hq)
        rw [List.length_append]
        omega
      have hvL : v.length ≤ L := by
        have := List.length_append v Δ
        have hd : Δ.length ≥ 1 := List.length_pos.mpr (List.ne_nil_of_mem hq)
        omega
      have hwalkL : pathWalk (v ++ Δ) L entryA [] = some p1 :=
        pathWalk_mono (pathWalk_append hp1c) hvL
      refine ⟨p1 ++ [⟨a1, e⟩], ?_, by simp⟩
      rw [pathOf, BreadthFirst.path_from_start, hlookq, hform, hL]
      simp only [pathWalk, hlA2]
      rw [pathWalk_acc [⟨a1, e⟩], hwalkL]
      rfl

/-- Draining the traversal from any state satisfying the invariant: it
terminates within the fuel, pops exactly the current front followed by the
nodes it discovers (in order), produces for each popped node its recorded
path, maintains the invariant to an empty front, and produces path lengths
monotonically non-decreasing from the front depth. -/
theorem bfsRun_spec {dump : CoreDump} {starts : List NodeId}
    (hclosed : ∀ q ∈ dump.nodes, ∀ e ∈ q.2.edges, ∀ r, e.referent = some r →
      dump.has_node r = true) :
    ∀ (fuel : Nat) (v : Visited) (front : List NodeId) (dlo k m : Nat),
      BfsInv dump starts v front →
      QueueShape v front dlo k m →
      k + m = front.length →
      front.length + unvis dump v ≤ fuel →
      ∃ (raw : List (List Step)) (Δ : Visited),
        bfsRun dump fuel ⟨v, front⟩ = .ok raw ∧
        BfsInv dump starts (v ++ Δ) [] ∧
        (∀ q ∈ Δ, q.1 ∉ keysOf v) ∧
        List.Forall₂ (fun id p => pathOf (v ++ Δ) id = some p ∧
          PathTo dump starts p id ∧ (p = [] ↔ id ∈ starts))
          (front ++ keysOf Δ) raw ∧
        List.Pairwise (· ≤ ·) (raw.map List.length) ∧
        (∀ d ∈ raw.map List.length, dlo ≤ d) := by
  intro fuel
  induction fuel with
  | zero =>
    intro v front dlo k m inv _ _ hfuel
    have hfr : front = [] := List.length_eq_zero.mp (by omega)
    subst hfr
    refine ⟨[], [], by rfl, by simpa using inv, by simp,
      by exact List.Forall₂.nil, by exact List.Pairwise.nil, by simp⟩
  | succ F ih =>
    intro v front dlo k m inv hshape hsum hfuel
    cases front with
    | nil =>
      refine ⟨[], [], ?_, by simpa using inv, by simp,
        by exact List.Forall₂.nil, by exact List.Pairwise.nil, by simp⟩
      rw [bfsRun]
      simp [BreadthFirst.next]
    | cons a1 rest =>
      obtain ⟨dlo2, k2, m2, hshape2, hsum2, hk2, hdlo2⟩ : ∃ dlo2 k2 m2,
          QueueShape v (a1 :: rest) dlo2 k2 m2 ∧
          k2 + m2 = (a1 :: rest).length ∧ 1 ≤ k2 ∧ dlo ≤ dlo2 := by
        rcases Nat.eq_zero_or_pos k with hk0 | hkpos
        · subst hk0
          refine ⟨dlo + 1, m, 0, ?_, by simpa using hsum, ?_, by omega⟩
          · rw [QueueShape] at hshape ⊢
            simpa using hshape
          · rw [List.length_cons] at hsum
            omega
        · exact ⟨dlo, k, m, hshape, hsum, hkpos, le_refl _⟩
      obtain ⟨k2', rfl⟩ : ∃ k2', k2 = k2' + 1 := ⟨k2 - 1, by omega⟩
      have hshape2' := hshape2
      rw [QueueShape, List.replicate_succ, List.cons_append,
        List.forall₂_cons] at hshape2'
      obtain ⟨hdepth_a1, htail⟩ := hshape2'
      obtain ⟨node, Δs, p1, hnode, hnext, hp1, hpt, hiff, inv', hfreshdump,
        hdepthnew⟩ := next_spec hclosed inv
      obtain ⟨pa, hpa, hlenpa⟩ := hdepth_a1
      rw [hpa] at hp1
      obtain rfl := Option.some.inj hp1
      have hp1v : pathOf v a1 = some pa := hpa
      have hshape3 : QueueShape (v ++ Δs) (rest ++ keysOf Δs) dlo2 k2'
          (m2 + Δs.length) := by
        rw [QueueShape]
        have h1 := List.Forall₂.imp
          (fun a b h => (DepthIs_append h : DepthIs (v ++ Δs) a b)) htail
        have h2 : List.Forall₂ (DepthIs (v ++ Δs)) (keysOf Δs)
            (List.replicate (keysOf Δs).length (dlo2 + 1)) := by
          apply forall2_replicate
          intro id hid
          obtain ⟨q, hq, rfl⟩ := List.mem_map.mp hid
          have := hdepthnew q hq
          rwa [hlenpa] at this
        have h3 := forall2_append h1 h2
        have hlk : (keysOf Δs).length = Δs.length := by simp [keysOf]
        rw [List.replicate_add, ← List.append_assoc, ← hlk]
        exact h3
      have hlk : (keysOf Δs).length = Δs.length := by simp [keysOf]
      have hsum3 : k2' + (m2 + Δs.length) = (rest ++ keysOf Δs).length := by
        rw [List.length_cons] at hsum2
        rw [List.length_append, hlk]
        omega
      have hfuel3 : (rest ++ keysOf Δs).length + unvis dump (v ++ Δs) ≤ F := by
        have hx := unvis_le dump Δs v (fun q hq => (hfreshdump q hq).2)
          inv'.keys_nodup (fun q hq => (hfreshdump q hq).1)
        rw [List.length_append, hlk]
        rw [List.length_cons] at hfuel
        omega
      obtain ⟨raw', Δ', hrun', hinv'', hfresh', hforall', hpair', hlow'⟩ :=
        ih (v ++ Δs) (rest ++ keysOf Δs) dlo2 k2' (m2 + Δs.length) inv'
          hshape3 hsum3 hfuel3
      refine ⟨pa :: raw', Δs ++ Δ', ?_, ?_, ?_, ?_, ?_, ?_⟩
      · rw [bfsRun, hnext]
        dsimp only []
        rw [hrun']
      · rw [← List.append_assoc]
        exact hinv''
      · intro q hq
        rcases List.mem_append.mp hq with h1 | h2
        · exact (hfreshdump q h1).1
        · intro hc
          exact hfresh' q h2 (by rw [keysOf_append]; exact List.mem_append_left _ hc)
      · rw [← List.append_assoc, keysOf_append, List.cons_append,
          ← List.append_assoc]
        exact List.Forall₂.cons
          ⟨pathOf_append (pathOf_append hp1v), hpt, hiff⟩ hforall'
      · rw [List.map_cons, List.pairwise_cons]
        refine ⟨?_, hpair'⟩
        intro d hd
        have := hlow' d hd
        omega
      · intro d hd
        rcases List.mem_cons.mp hd with rfl | hd2
        · omega
        · have := hlow' _ hd2
          omega

/-- Seeding the traversal: with fresh, duplicate-free start nodes present in
the dump, the fold of `set_start_node` succeeds and appends each start to
the visited map (mapped to `None`) and to the front, in order. -/
theorem seed_spec (dump : CoreDump) :
    ∀ (ss : List NodeId) (v : Visited) (f : List NodeId),
      (∀ s ∈ ss, dump.has_node s = true) →
      (∀ s ∈ ss, s ∉ keysOf v) →
      ss.Nodup →
      List.foldlM (fun bf id => BreadthFirst.set_start_node dump bf id)
        (⟨v, f⟩ : BreadthFirst) ss
      = .ok ⟨v ++ ss.map (fun s => (s, none)), f ++ ss⟩ := by
  intro ss
  induction ss with
  | nil =>
    intro v f _ _ _
    simp [pure, Except.pure]
  | cons s ss' ih =>
    intro v f hhas hfresh hnodup
    rw [List.foldlM_cons]
    have hset : BreadthFirst.set_start_node dump ⟨v, f⟩ s
        = .ok ⟨v ++ [(s, none)], f ++ [s]⟩ := by
      rw [BreadthFirst.set_start_node,
        if_pos (hhas s (List.mem_cons_self _ _))]
      rw [hmInsert_fresh (hfresh s (List.mem_cons_self _ _))]
    rw [hset]
    have hih := ih (v ++ [(s, none)]) (f ++ [s])
      (fun x hx => hhas x (List.mem_cons_of_mem _ hx))
      (fun x hx => by
        rw [keysOf_append]
        intro hc
        rcases List.mem_append.mp hc with h1 | h2
        · exact hfresh x (List.mem_cons_of_mem _ hx) h1
        · have : x = s := by simpa [keysOf] using h2
          rw [this] at hx
          exact (List.nodup_cons.mp hnodup).1 hx)
      (List.nodup_cons.mp hnodup).2
    rw [show ((Except.ok ⟨v ++ [(s, none)], f ++ [s]⟩ :
        Except Error BreadthFirst) >>= fun b =>
        List.foldlM (fun bf id => BreadthFirst.set_start_node dump bf id) b ss')
        = List.foldlM (fun bf id => BreadthFirst.set_start_node dump bf id)
          (⟨v ++ [(s, none)], f ++ [s]⟩ : BreadthFirst) ss' from rfl]
    rw [hih]
    simp

/-- The keys of a seeded visited map are the start nodes themselves. -/
theorem keys_seed (ss : List NodeId) :
    keysOf (ss.map (fun s => (s, (none : Option Step)))) = ss := by
  simp [keysOf, List.map_map]
  exact List.map_id ss

/-- The recorded path of a node whose entry is the start marker is empty. -/
theorem pathOf_start {v : Visited} {s : NodeId}
    (hv : visitedLookup v s = some none) :
    pathOf v s = some [] := by
  cases v with
  | nil => simp [visitedLookup] at hv
  | cons q v2 =>
    rw [pathOf, BreadthFirst.path_from_start, hv]
    show pathWalk (q :: v2) (v2.length + 1) none [] = some []
    rw [pathWalk]
    omega

/-- The invariant holds for the freshly seeded traversal. -/
theorem seed_inv (dump : CoreDump) (starts : List NodeId)
    (hstarts : ∀ s ∈ starts, dump.has_node s = true)
    (hnodup : starts.Nodup) :
    BfsInv dump starts (starts.map (fun s => (s, none))) starts := by
  constructor
  · rw [keys_seed]
    exact hnodup
  · exact hnodup
  · intro id hid
    rw [keys_seed]
    exact hid
  · intro id hid
    rw [keys_seed] at hid
    exact hstarts id hid
  · intro q hq _
    obtain ⟨x, hx, rfl⟩ := List.mem_map.mp hq
    exact hx
  · intro x hx
    have hmem : ((x, none) : NodeId × Option Step)
        ∈ starts.map (fun s => (s, none)) := List.mem_map.mpr ⟨x, hx, rfl⟩
    have := visitedLookup_of_mem_nodup hmem (by rw [keys_seed]; exact hnodup)
    exact this
  · intro q hq st hst
    obtain ⟨x, hx, rfl⟩ := List.mem_map.mp hq
    cases hst
  · intro id hid hnf
    rw [keys_seed] at hid
    exact absurd hid hnf

/-- The seeded queue has the flat shape of depth zero. -/
theorem seed_shape (starts : List NodeId) (hnodup : starts.Nodup) :
    QueueShape (starts.map (fun s => (s, none))) starts 0 starts.length 0 := by
  rw [QueueShape]
  rw [List.replicate_zero, List.append_nil]
  apply forall2_replicate
  intro s hs
  refine ⟨[], ?_, rfl⟩
  exact pathOf_start (visitedLookup_of_mem_nodup (List.mem_map.mpr ⟨s, hs, rfl⟩)
    (by rw [keys_seed]; exact hnodup))

/-- A path that is empty ends at a start node. -/
theorem PathTo_nil {dump : CoreDump} {starts : List NodeId} {p : List Step}
    {s : NodeId} (h : PathTo dump starts p s) (hp : p = []) : s ∈ starts := by
  cases h with
  | nil hs => exact hs
  | snoc hp0 hnode hedge href => simp at hp

/-- The first step of a nonempty path from the start set originates at a
start node. -/
theorem PathTo_head {dump : CoreDump} {starts : List NodeId} :
    ∀ {p : List Step} {id : NodeId}, PathTo dump starts p id →
      ∀ {st : Step} {rest : List Step}, p = st :: rest →
        st.origin ∈ starts := by
  intro p id h
  induction h with
  | nil _ => intro st rest hp; simp at hp
  | snoc hp0 hnode hedge href ih =>
    intro st rest hp
    rename_i p0 origin id2 node edge
    cases p0 with
    | nil =>
      rw [List.nil_append] at hp
      injection hp with h1 h2
      rw [← h1]
      exact PathTo_nil hp0 rfl
    | cons x xs =>
      rw [List.cons_append] at hp
      injection hp with h1 h2
      rw [← h1]
      exact ih rfl

/-- Every step of a path from the start set uses a real edge of a real node
of the dump and has a referent. -/
theorem PathTo_steps {dump : CoreDump} {starts : List NodeId} :
    ∀ {p : List Step} {id : NodeId}, PathTo dump starts p id →
      ∀ st ∈ p, ∃ node, dump.get_node st.origin = some node ∧
        st.edge ∈ node.edges ∧ ∃ r, st.edge.referent = some r := by
  intro p id h
  induction h with
  | nil _ => intro st hst; cases hst
  | snoc hp0 hnode hedge href ih =>
    intro st hst
    rename_i p0 origin id2 node edge
    rcases List.mem_append.mp hst with h1 | h2
    · exact ih st h1
    · have hst2 : st = ⟨origin, edge⟩ := by simpa using h2
      subst hst2
      exact ⟨node, hnode, hedge, id2, href⟩

theorem wrapStep_ok {dump : CoreDump} {st : Step} {r : NodeId} {n : Node}
    (href : st.edge.referent = some r) (hn : dump.get_node r = some n) :
    wrapStep dump st = some [Value.edge st.edge, Value.node n] := by
  simp [wrapStep, href, hn, pure]

theorem mapM_loop_acc {α β : Type} (f : α → Option β) :
    ∀ (l : List α) (acc : List β),
      List.mapM.loop f l acc
        = (List.mapM.loop f l []).map (fun bs => acc.reverse ++ bs) := by
  intro l
  induction l with
  | nil => intro acc; simp [List.mapM.loop, pure]
  | cons a l ih =>
    intro acc
    cases hfa : f a with
    | none =>
      rw [List.mapM.loop]
      conv_rhs => rw [List.mapM.loop]
      simp [hfa]
    | some b =>
      rw [List.mapM.loop]
      conv_rhs => rw [List.mapM.loop]
      simp only [hfa]
      rw [show ((some b >>= fun b => List.mapM.loop f l (b :: acc)) :
          Option (List β)) = List.mapM.loop f l (b :: acc) from rfl]
      rw [show ((some b >>= fun b => List.mapM.loop f l [b]) :
          Option (List β)) = List.mapM.loop f l [b] from rfl]
      rw [ih (b :: acc), ih [b], Option.map_map]
      congr 1
      funext bs
      simp

theorem option_mapM_cons_some {α β : Type} {f : α → Option β} {a : α}
    {l : List α} {b : β} {bs : List β} (ha : f a = some b)
    (hl : List.mapM f l = some bs) : List.mapM f (a :: l) = some (b :: bs) := by
  show List.mapM.loop f (a :: l) [] = some (b :: bs)
  rw [List.mapM.loop, ha]
  rw [show ((some b >>= fun b => List.mapM.loop f l [b]) :
      Option (List β)) = List.mapM.loop f l [b] from rfl]
  rw [mapM_loop_acc]
  have hl2 : List.mapM.loop f l [] = some bs := hl
  rw [hl2]
  simp

theorem wrap_steps_ok {dump : CoreDump} :
    ∀ (p : List Step),
      (∀ st ∈ p, ∃ n, wrapStep dump st = some [Value.edge st.edge, Value.node n]) →
      ∃ l, p.mapM (wrapStep dump) = some l ∧ AltTail l.flatten := by
  intro p
  induction p with
  | nil =>
    intro _
    exact ⟨[], rfl, AltTail.nil⟩
  | cons st rest ih =>
    intro h
    obtain ⟨n, hst⟩ := h st (List.mem_cons_self _ _)
    obtain ⟨l, hl, halt⟩ := ih (fun st' h' => h st' (List.mem_cons_of_mem _ h'))
    refine ⟨[Value.edge st.edge, Value.node n] :: l, ?_, ?_⟩
    · exact option_mapM_cons_some hst hl
    · rw [List.flatten_cons]
      exact AltTail.cons halt

/-- With all edges of the dump resolvable, a nonempty path from the start
set wraps as its source node followed by an alternating edge/node tail. -/
theorem wrapPath_ok {dump : CoreDump} {starts : List NodeId}
    (hclosed : ∀ q ∈ dump.nodes, ∀ e ∈ q.2.edges, ∀ r, e.referent = some r →
      dump.has_node r = true)
    {p : List Step} {id : NodeId} {st : Step} {rest : List Step}
    (hpt : PathTo dump starts p id) (hp : p = st :: rest) :
    ∃ n0 vs, dump.get_node st.origin = some n0 ∧
      wrapPath dump p = some (Value.node n0 :: vs) ∧ AltTail vs := by
  subst hp
  obtain ⟨n0, hn0, _, _⟩ := PathTo_steps hpt st (List.mem_cons_self _ _)
  have hsteps : ∀ st' ∈ st :: rest,
      ∃ n, wrapStep dump st' = some [Value.edge st'.edge, Value.node n] := by
    intro st' hst'
    obtain ⟨node, hnode, hedge, r, href⟩ := PathTo_steps hpt st' hst'
    have hr : dump.has_node r = true :=
      hclosed (st'.origin, node) (get_node_mem hnode) st'.edge hedge r href
    obtain ⟨n, hn⟩ := has_node_get hr
    exact ⟨n, wrapStep_ok href hn⟩
  obtain ⟨l, hl, halt⟩ := wrap_steps_ok _ hsteps
  refine ⟨n0, l.flatten, hn0, ?_, halt⟩
  have hl2 : List.mapM.loop (wrapStep dump) (st :: rest) [] = some l := hl
  simp [wrapPath, hn0, hl, hl2, pure]

/-- C7 (amended): for a dump whose edges all resolve and a duplicate-free
list of start nodes present in the dump, the traversal behind the `paths`
primitive enumerates, duplicate-free, exactly the nodes reachable from the
start set; each node's path leads from a start node to it and is empty
exactly for the start nodes; path lengths are monotonically non-decreasing;
and the primitive's stream wraps each nonempty path as its source (start)
node followed by an alternating edge/node tail, while the start nodes' own
empty paths are dropped from the stream. -/
theorem c7_paths_stream (dump : CoreDump) (starts : List NodeId)
    (hclosed : ∀ q ∈ dump.nodes, ∀ e ∈ q.2.edges, ∀ r, e.referent = some r →
      dump.has_node r = true)
    (hstarts : ∀ s ∈ starts, dump.has_node s = true)
    (hnodup : starts.Nodup) :
    ∃ (vEnd : Visited) (ids : List NodeId) (raw : List (List Step)),
      pathsPrimitive dump starts = .ok (raw.filterMap (wrapPath dump)) ∧
      ids.Nodup ∧
      (∀ id, id ∈ ids ↔ Reachable dump starts id) ∧
      List.Forall₂ (fun id p => pathOf vEnd id = some p ∧
        PathTo dump starts p id ∧ (p = [] ↔ id ∈ starts)) ids raw ∧
      List.Pairwise (· ≤ ·) (raw.map List.length) ∧
      (∀ p ∈ raw, p = [] → wrapPath dump p = none) ∧
      (∀ p ∈ raw, p ≠ [] → ∃ st rest n0 vs, p = st :: rest ∧
        st.origin ∈ starts ∧ dump.get_node st.origin = some n0 ∧
        wrapPath dump p = some (Value.node n0 :: vs) ∧ AltTail vs) := by
  have hseed2 : List.foldlM
      (fun bf id => BreadthFirst.set_start_node dump bf id)
      BreadthFirst.new starts
      = .ok ⟨starts.map (fun s => (s, none)), starts⟩ := by
    have h := seed_spec dump starts [] [] hstarts (by simp [keysOf]) hnodup
    simpa using h
  have hinv := seed_inv dump starts hstarts hnodup
  have hshape := seed_shape starts hnodup
  have hfuel : starts.length + unvis dump (starts.map (fun s => (s, none)))
      ≤ bfsFuel dump ⟨starts.map (fun s => (s, none)), starts⟩ := by
    have h1 : unvis dump (starts.map (fun s => (s, none)))
        ≤ dump.nodes.length := by
      have h2 : (dump.nodes.map Prod.fst).countP
          (fun id => decide (id ∉ keysOf (starts.map (fun s => (s, none)))))
          ≤ (dump.nodes.map Prod.fst).length := List.countP_le_length _
      rw [List.length_map] at h2
      rw [unvis]
      exact h2
    have h3 : bfsFuel dump ⟨starts.map (fun s => (s, none)), starts⟩
        = starts.length + dump.nodes.length + 1 := rfl
    rw [h3]
    omega
  obtain ⟨raw, Δ, hrun, hinvEnd, hfreshΔ, hforall, hpair, _⟩ :=
    bfsRun_spec hclosed (bfsFuel dump ⟨starts.map (fun s => (s, none)), starts⟩)
      (starts.map (fun s => (s, none))) starts 0 starts.length 0 hinv hshape
      (by simp) hfuel
  have hkeys : keysOf (starts.map (fun s => (s, none)) ++ Δ)
      = starts ++ keysOf Δ := by
    rw [keysOf_append, keys_seed]
  refine ⟨starts.map (fun s => (s, none)) ++ Δ, starts ++ keysOf Δ, raw,
    ?_, ?_, ?_, hforall, hpair, ?_, ?_⟩
  · rw [pathsPrimitive]
    rw [show (starts.foldlM (fun bf id => BreadthFirst.set_start_node dump bf id)
        BreadthFirst.new : Except Error BreadthFirst)
      = .ok ⟨starts.map (fun s => (s, none)), starts⟩ from hseed2]
    rw [show ((Except.ok (⟨starts.map (fun s => (s, none)), starts⟩ :
        BreadthFirst) : Except Error BreadthFirst) >>= fun bf =>
        (bfsRun dump (bfsFuel dump bf) bf : Except Error (List (List Step)))
          >>= fun raw => .ok (raw.filterMap (wrapPath dump)))
      = ((bfsRun dump
          (bfsFuel dump ⟨starts.map (fun s => (s, none)), starts⟩)
          ⟨starts.map (fun s => (s, none)), starts⟩ :
            Except Error (List (List Step)))
          >>= fun raw => .ok (raw.filterMap (wrapPath dump))) from rfl]
    rw [hrun]
    rfl
  · have h := hinvEnd.keys_nodup
    rw [hkeys] at h
    exact h
  · intro id
    constructor
    · intro hid
      obtain ⟨p, _, hrel⟩ := forall2_mem_left hforall hid
      exact ⟨p, hrel.2.1⟩
    · rintro ⟨p, hp⟩
      rw [← hkeys]
      induction hp with
      | nil hs =>
        rw [hkeys]
        exact List.mem_append_left _ hs
      | snoc hp0 hnode hedge href ih =>
        rename_i p0 origin id2 node edge
        exact hinvEnd.processed origin ih (by simp) node hnode edge hedge
          id2 href
  · intro p _ hpe
    subst hpe
    rfl
  · intro p hp hne
    obtain ⟨id, _, hrel⟩ := forall2_mem_right hforall hp
    obtain ⟨st, rest, rfl⟩ : ∃ st rest, p = st :: rest := by
      cases p with
      | nil => exact absurd rfl hne
      | cons a b => exact ⟨a, b, rfl⟩
    have hpt := hrel.2.1
    have hhead := PathTo_head hpt rfl
    obtain ⟨n0, vs, hn0, hwrap, halt⟩ := wrapPath_ok hclosed hpt rfl
    exact ⟨st, rest, n0, vs, rfl, hhead, hn0, hwrap, halt⟩

/-- A one-node dump with no edges, for exercising the `paths` primitive. -/
def c7dump : CoreDump :=
  ⟨[(1, ⟨1, none, [], 0, none, none, none, none⟩)],
   ⟨1, none, [], 0, none, none, none, none⟩⟩

/-- C7 counterexample: node 1 is reachable from the start set `[1]` (it is
a start node), yet the `paths` stream yields no path at all for it: the
start node's empty path is dropped by the `filter_map` in `Paths::run`,
so the stream does not yield one path per reachable node. -/
theorem c7_paths_counterexample :
    pathsPrimitive c7dump [1] = .ok [] ∧ Reachable c7dump [1] 1 := by
  constructor
  · rfl
  · exact ⟨[], PathTo.nil (by simp)⟩

/-- A two-node dump in which node 1 has one edge to node 2. -/
def c7wdump : CoreDump :=
  ⟨[(1, ⟨1, none, [⟨some 2, none⟩], 0, none, none, none, none⟩),
    (2, ⟨2, none, [], 0, none, none, none, none⟩)],
   ⟨1, none, [⟨some 2, none⟩], 0, none, none, none, none⟩⟩

/-- C7 witness: the amended theorem applied to the two-node dump with start
node 1. -/
theorem c7_paths_stream_witness :
    (∀ q ∈ c7wdump.nodes, ∀ e ∈ q.2.edges, ∀ r, e.referent = some r →
      c7wdump.has_node r = true) ∧
    (∀ s ∈ ([1] : List NodeId), c7wdump.has_node s = true) ∧
    ([1] : List NodeId).Nodup ∧
    (∃ (vEnd : Visited) (ids : List NodeId) (raw : List (List Step)),
      pathsPrimitive c7wdump [1] = .ok (raw.filterMap (wrapPath c7wdump)) ∧
      ids.Nodup ∧
      (∀ id, id ∈ ids ↔ Reachable c7wdump [1] id) ∧
      List.Forall₂ (fun id p => pathOf vEnd id = some p ∧
        PathTo c7wdump [1] p id ∧ (p = [] ↔ id ∈ ([1] : List NodeId))) ids raw ∧
      List.Pairwise (· ≤ ·) (raw.map List.length) ∧
      (∀ p ∈ raw, p = [] → wrapPath c7wdump p = none) ∧
      (∀ p ∈ raw, p ≠ [] → ∃ st rest n0 vs, p = st :: rest ∧
        st.origin ∈ ([1] : List NodeId) ∧
        c7wdump.get_node st.origin = some n0 ∧
        wrapPath c7wdump p = some (Value.node n0 :: vs) ∧ AltTail vs)) :=
  ⟨by
    intro q hq e he r hr
    rcases List.mem_cons.mp hq with rfl | hq2
    · rcases List.mem_cons.mp he with rfl | he2
      · obtain rfl : (2 : NodeId) = r := Option.some.inj hr
        decide
      · simp at he2
    · rcases List.mem_cons.mp hq2 with rfl | hq3
      · simp at he
      · simp at hq3,
   by decide, by decide,
   c7_paths_stream c7wdump [1]
     (by
       intro q hq e he r hr
       rcases List.mem_cons.mp hq with rfl | hq2
       · rcases List.mem_cons.mp he with rfl | he2
         · obtain rfl : (2 : NodeId) = r := Option.some.inj hr
           decide
         · simp at he2
       · rcases List.mem_cons.mp hq2 with rfl | hq3
         · simp at he
         · simp at hq3)
     (by decide) (by decide)⟩

end Fxsnapshot
